import Mathlib

/-!
Shallow embedding of the srepl annotation-synchronization engine.

JavaScript strings are modelled as `List Char` (`Str`); a JS string is a
sequence of UTF-16 units, which for the texts handled here coincides with a
sequence of Unicode scalar values.  JS `undefined` results are modelled with
`Option`.  Each definition in the `Srepl` namespace is translated from the
corresponding function of the source repository (`edit.ts` for the rewrite
engine, `log.ts` for the log protocol); the JS behaviours that matter
(`String.prototype.indexOf` clamping, truthiness of empty strings, `||`
treating `0` as falsy, `Math.min()` over `Infinity`) are reproduced explicitly.
-/

namespace Srepl

abbrev Str := List Char

/-- First index at which `needle` occurs in `hay` (JS `hay.indexOf(needle)`). -/
def findSub (needle : Str) : Str → Option Nat
  | [] => if needle.isEmpty then some 0 else none
  | c :: rest =>
    if needle.isPrefixOf (c :: rest) then some 0
    else (findSub needle rest).map (· + 1)

/-- JS `hay.includes(needle)`. -/
def containsSub (needle hay : Str) : Bool := (findSub needle hay).isSome

/-- JS `hay.indexOf(needle, start)` for a non-negative `start` (already clamped). -/
def indexOfFrom (needle hay : Str) (start : Nat) : Option Nat :=
  (findSub needle (hay.drop start)).map (· + start)

/-- `hay.split(needle)[0]`: the prefix of `hay` before the first occurrence of
`needle` (all of `hay` when there is none). -/
def takeBeforeSub (needle hay : Str) : Str :=
  match findSub needle hay with
  | some i => hay.take i
  | none => hay

/-- JS `s.split(sep)` for a single-character separator. -/
def splitOnChar (sep : Char) : Str → List Str
  | [] => [[]]
  | c :: rest =>
    if c = sep then [] :: splitOnChar sep rest
    else
      match splitOnChar sep rest with
      | l :: ls => (c :: l) :: ls
      | [] => [[c]]

/-- JS `parts.join(sep)`. -/
def joinSep (sep : Str) : List Str → Str
  | [] => []
  | [l] => l
  | l :: ls => l ++ sep ++ joinSep sep ls

def splitLines : Str → List Str := splitOnChar '\n'

def joinLines : List Str → Str := joinSep ['\n']

theorem splitOnChar_ne_nil (sep : Char) (s : Str) : splitOnChar sep s ≠ [] := by
  cases s with
  | nil => simp [splitOnChar]
  | cons c rest =>
    simp only [splitOnChar]
    split
    · simp
    · cases h : splitOnChar sep rest <;> simp

theorem joinSep_cons (sep : Str) (l : Str) (ls : List Str) (h : ls ≠ []) :
    joinSep sep (l :: ls) = l ++ sep ++ joinSep sep ls := by
  cases ls with
  | nil => exact absurd rfl h
  | cons x xs => rfl

theorem join_split (sep : Char) (s : Str) :
    joinSep [sep] (splitOnChar sep s) = s := by
  induction s with
  | nil => simp [splitOnChar, joinSep]
  | cons c rest ih =>
    simp only [splitOnChar]
    by_cases hc : c = sep
    · rw [if_pos hc, joinSep_cons _ _ _ (splitOnChar_ne_nil sep rest), ih, hc]
      simp
    · rw [if_neg hc]
      cases hsp : splitOnChar sep rest with
      | nil => exact absurd hsp (splitOnChar_ne_nil sep rest)
      | cons l ls =>
        cases ls with
        | nil =>
          simp only [joinSep]
          rw [hsp] at ih
          simpa [joinSep] using congrArg (c :: ·) ih
        | cons y ys =>
          rw [joinSep_cons _ _ _ (by simp)]
          rw [hsp] at ih
          rw [joinSep_cons _ _ _ (by simp)] at ih
          simpa using congrArg (c :: ·) ih

theorem joinLines_splitLines (s : Str) : joinLines (splitLines s) = s :=
  join_split '\n' s

/-! ### The rewrite engine (`edit.ts`) — stripping -/

def commentStart : Str := "//=>".data

def trailingCommentStart : Str := ' ' :: commentStart

def multiLineCommentStart : Str := "/*=>".data

def multiLineCommentEnd : Str := ['*', '/', '\n']

/-- The two-character close marker searched for by the apply-side deletion loop
(`'*/'` in the source, without the newline). -/
def closeComment : Str := ['*', '/']

def stripTrailingLogComments (content : Str) : Str :=
  joinLines ((splitLines content).map fun l =>
    if containsSub trailingCommentStart l then takeBeforeSub trailingCommentStart l else l)

theorem isPrefixOf_ex {P X : Str} (h : P.isPrefixOf X = true) : ∃ t, X = P ++ t := by
  induction P generalizing X with
  | nil => exact ⟨X, rfl⟩
  | cons a as ih =>
    cases X with
    | nil => simp [List.isPrefixOf] at h
    | cons b bs =>
      simp only [List.isPrefixOf, Bool.and_eq_true, beq_iff_eq] at h
      obtain ⟨rfl, h2⟩ := h
      obtain ⟨t, rfl⟩ := ih h2
      exact ⟨t, rfl⟩

theorem isPrefixOf_of_ex (P t : Str) : P.isPrefixOf (P ++ t) = true := by
  induction P with
  | nil => simp [List.isPrefixOf]
  | cons a as ih => simp [List.isPrefixOf, ih]

theorem isPrefixOf_length_le {P X : Str} (h : P.isPrefixOf X = true) :
    P.length ≤ X.length := by
  obtain ⟨t, rfl⟩ := isPrefixOf_ex h
  simp

theorem findSub_some_le (needle hay : Str) (i : Nat) (h : findSub needle hay = some i) :
    i + needle.length ≤ hay.length ∧ needle.isPrefixOf (hay.drop i) := by
  induction hay generalizing i with
  | nil =>
    simp only [findSub] at h
    split at h
    · cases h
      rename_i he
      simp_all [List.isEmpty_iff, List.isPrefixOf]
    · cases h
  | cons c rest ih =>
    simp only [findSub] at h
    split at h
    · cases h
      rename_i hp
      constructor
      · simpa using isPrefixOf_length_le hp
      · simpa using hp
    · cases hr : findSub needle rest with
      | none => rw [hr] at h; cases h
      | some j =>
        rw [hr] at h
        simp only [Option.map_some'] at h
        cases h
        obtain ⟨h1, h2⟩ := ih j hr
        constructor
        · simpa [Nat.add_right_comm] using Nat.add_le_add_right h1 1
        · simpa using h2

theorem indexOfFrom_some_le (needle hay : Str) (start i : Nat)
    (h : indexOfFrom needle hay start = some i) :
    i + needle.length ≤ hay.length ∨ needle.length = 0 := by
  simp only [indexOfFrom] at h
  cases hf : findSub needle (hay.drop start) with
  | none => rw [hf] at h; cases h
  | some j =>
    rw [hf] at h
    simp only [Option.map_some'] at h
    obtain ⟨h1, _⟩ := findSub_some_le _ _ _ hf
    cases h
    rcases Nat.le_total start hay.length with hs | hs
    · left
      have : j + needle.length ≤ hay.length - start := by simpa using h1
      omega
    · right
      have : hay.drop start = [] := List.drop_eq_nil_of_le hs
      rw [this] at h1
      simp only [List.length_nil] at h1
      omega

/-- The `for (let i = 0; i < content.length; )` loop of
`stripMultiLineLogComments`, written with an explicit fuel so that it is
structurally recursive (and hence computes inside the kernel).  Every
iteration advances past at least one character of `content`, so any fuel
`≥ content.length` gives the loop of the source: when the fuel is `0` the
remaining content is empty and is returned unchanged, like the source does. -/
def stripMultiGo : Nat → Str → Str
  | 0, content => content
  | fuel + 1, content =>
    match findSub multiLineCommentStart content with
    | none => content
    | some commentStartIndex =>
      match indexOfFrom multiLineCommentEnd content commentStartIndex with
      | none => content
      | some commentEndIndex =>
        content.take commentStartIndex ++
          stripMultiGo fuel (content.drop (commentEndIndex + multiLineCommentEnd.length))

def stripMultiLineLogComments (content : Str) : Str := stripMultiGo content.length content

def stripLogEntriesFromFileContent (content : Str) : Str :=
  stripMultiLineLogComments (stripTrailingLogComments content)

/-! ### The rewrite engine (`edit.ts`) — applying entries

`applyLogEntriesToFileContent` works on an array of lines into which a fresh
random UUID (`clearLineMarker`) is substituted to mark lines for deletion.  We
model the marker by lifting the line array to `List (Option Str)` with `none`
for a marked line.  This is faithful because a version-4 UUID consists of hex
digits and dashes only, hence is non-empty (truthy), contains none of `'('`,
`')'`, `' //=>'`, `'/*=>'`, `'*/'`, and never collides with a content line. -/

structure LogEntry where
  filePath : Str
  line : Int
  column : Option Int
  result : Str
deriving DecidableEq, Repr

/-- JS `e.column || Infinity`: `undefined` and `0` are falsy, so both become
`Infinity` (modelled as `none`). -/
def jsColValue : Option Int → Option Int
  | none => none
  | some v => if v = 0 then none else some v

def listMinInt : List Int → Option Int
  | [] => none
  | x :: xs => some (match listMinInt xs with | none => x | some m => min x m)

/-- `Math.max(1, Math.min(...entries.map(e => e.column || Infinity)))`;
`none` models the value `Infinity` (which `Math.max` leaves unchanged). -/
def leftMostColumn (entries : List LogEntry) : Option Int :=
  (listMinInt (entries.filterMap fun e => jsColValue e.column)).map (fun m => max 1 m)

structure Position where
  line : Int
  /-- `none` models `Infinity`, which `leftMostColumn` produces when no entry
  in the group has a truthy column. -/
  column : Option Int
deriving DecidableEq, Repr

/-- Clamping JS `String.prototype.indexOf` applies to its position argument. -/
def clampStart (len : Nat) : Option Int → Nat
  | none => len
  | some i => if i < 0 then 0 else min i.toNat len

/-- Scan one line (or the remainder of one), updating the parenthesis depth
after each character and stopping as soon as it reaches `0`; `none` means the
depth reached `0` inside this chunk, `some d` is the depth after it. -/
def lineScan : Str → Nat → Option Nat
  | [], d => some d
  | ch :: rest, d =>
    let d' := if ch = '(' then d + 1 else if ch = ')' then d - 1 else d
    if d' = 0 then none else lineScan rest d'

/-- A marked line is a UUID: no parentheses, so the depth passes through. -/
def lineScanO : Option Str → Nat → Option Nat
  | none, d => some d
  | some l, d => lineScan l d

/-- The outer `for` loop of `findCallEndLineIndex`: scan successive whole
lines (the current index is carried along) until the depth reaches `0`. -/
def scanRest : List (Option Str) → Nat → Nat → Option Nat
  | [], _, _ => none
  | l :: ls, i, d =>
    match lineScanO l d with
    | none => some i
    | some d' => scanRest ls (i + 1) d'

def findCallEndLineIndex : Position → List (Option Str) → Option Nat
  | ⟨startLine, startColumn⟩, lines =>
  if startLine < 1 then none
  else
    let index := (startLine - 1).toNat
    match lines.get? index with
    | some (some line) =>
      if line = [] then none
      else
        match indexOfFrom ['('] line (clampStart line.length startColumn) with
        | none => none
        | some parenStartIndex =>
          match lineScan (line.drop (parenStartIndex + 1)) 1 with
          | none => some index
          | some d => scanRest (lines.drop (index + 1)) (index + 1) d
    | _ => none

def prefixLines (text : Str) (pre : Str) : Str :=
  joinLines ((splitLines text).map fun l => pre ++ l)

def backtrackIndent (line : Str) (caret : Nat) : Str :=
  (line.take caret).map fun ch => if ch = '\t' then '\t' else ' '

/-- `multiLineCommentStart.length + 1` spaces. -/
def resultIndentation : Str := List.replicate (multiLineCommentStart.length + 1) ' '

/-- The rendered block comment (before the per-line `commentIndent`). -/
def blockBody (entries : List LogEntry) : Str :=
  multiLineCommentStart ++ ' ' ::
    ((prefixLines (joinSep [',', '\n'] (entries.map (·.result))) resultIndentation).drop
      (multiLineCommentStart.length + 1)) ++ '\n' :: closeComment

/-- The deletion loop over a stale block comment: mark each line from `i` on,
stopping after the first truthy line containing `*/`.  Structural fuel
version; `lines.length` fuel always suffices since `i` only increases. -/
def markLoopGo : Nat → List (Option Str) → Nat → List (Option Str)
  | 0, lines, _ => lines
  | fuel + 1, lines, i =>
    if h : i < lines.length then
      let commentLine := lines.get ⟨i, h⟩
      let lines' := lines.set i none
      match commentLine with
      | some l =>
        if l ≠ [] ∧ containsSub closeComment l then lines' else markLoopGo fuel lines' (i + 1)
      | none => markLoopGo fuel lines' (i + 1)
    else lines

def markLoop (lines : List (Option Str)) (i : Nat) : List (Option Str) :=
  markLoopGo lines.length lines i

/-- The body of the `for (const [lineNumber, entries] of ...)` loop. -/
def applyGroup (lines : List (Option Str)) (lineNumber : Int)
    (entries : List LogEntry) : List (Option Str) :=
  let anchor := leftMostColumn entries
  match findCallEndLineIndex ⟨lineNumber, anchor⟩ lines with
  | none => lines
  | some index =>
    match lines.get? index with
    | some (some line) =>
      if line = [] then lines
      else
        let originalLine := takeBeforeSub trailingCommentStart line
        if entries.any (fun e => containsSub ['\n'] e.result) then
          -- leftMostColumn - 1; `anchor = none` (Infinity) cannot reach this
          -- branch (no `(` is then found), and JS would clamp the caret to the
          -- line length, which is what the `none` case returns.
          let caret : Nat := match anchor with
            | some k => (k - 1).toNat
            | none => line.length
          let commentIndent := backtrackIndent line caret
          let lines1 := lines.set index
            (some (originalLine ++ '\n' :: prefixLines (blockBody entries) commentIndent))
          match lines1.get? (index + 1) with
          | some (some nextLine) =>
            if containsSub multiLineCommentStart nextLine then
              markLoop (lines1.set (index + 1) none) (index + 2)
            else lines1
          | _ => lines1
        else
          lines.set index
            (some (originalLine ++ trailingCommentStart ++ ' ' ::
              joinSep [',', ' '] (entries.map (·.result))))
    | _ => lines

def insertSorted (x : Int) : List Int → List Int
  | [] => [x]
  | y :: ys => if x ≤ y then x :: y :: ys else y :: insertSorted x ys

/-- The distinct line numbers of the entries in ascending order.  JS iterates
`Object.entries` of a record keyed by numbers in ascending numeric order for
array-index-like keys; groups whose line is not a positive in-range integer
never modify the text (their call-end search fails), so this ordering is
observationally the iteration order of the source. -/
def sortedLines (entries : List LogEntry) : List Int :=
  (entries.foldl (fun acc e => if e.line ∈ acc then acc else acc ++ [e.line]) []).foldr
    insertSorted []

def applyLogEntriesToFileContent (content : Str) (entries : List LogEntry) : Str :=
  let lines0 : List (Option Str) := (splitLines content).map some
  let finalLines := (sortedLines entries).foldl
    (fun ls n => applyGroup ls n (entries.filter fun e => e.line == n)) lines0
  joinLines (finalLines.filterMap id)

/-! ### The log protocol (`log.ts`)

`stringifyLogEntry` and `parseLogEntry` use Node's `path.relative` and
`path.resolve` and JS `encodeURIComponent` / `decodeURIComponent`,
`parseInt(s, 10)` and `isFinite`.  These external collaborators are modelled
below (POSIX path rules; `cwd` makes the implicit `process.cwd()` explicit).
`decodeURIComponent` throws `URIError` on malformed input, modelled by
`none`, which `parseLogEntry` propagates as `Except.error`. -/

def isSpaceJS (c : Char) : Bool :=
  c = ' ' ∨ c = '\t' ∨ c = '\x0b' ∨ c = '\x0c' ∨ c = '\n' ∨ c = '\r'

def isDigitChar (c : Char) : Bool := '0' ≤ c ∧ c ≤ '9'

def digitsVal (s : Str) : Nat :=
  s.foldl (fun acc ch => acc * 10 + (ch.toNat - 48)) 0

def digitPre (s : Str) : Option Nat :=
  let d := s.takeWhile isDigitChar
  if d = [] then none else some (digitsVal d)

/-- JS `parseInt(s, 10)`: skip leading whitespace, optional sign, then the
longest digit prefix; `none` models `NaN` (so `isFinite` = `isSome`). -/
def parseIntJS (s : Str) : Option Int :=
  match s.dropWhile isSpaceJS with
  | '-' :: rest => (digitPre rest).map (fun n => -(n : Int))
  | '+' :: rest => (digitPre rest).map (fun n => (n : Int))
  | s1 => (digitPre s1).map (fun n => (n : Int))

def digitChar (d : Nat) : Char := Char.ofNat (48 + d)

/-- Decimal rendering, fuel-structural (`n + 1` fuel always suffices). -/
def natToStrGo : Nat → Nat → Str
  | 0, _ => []
  | fuel + 1, n =>
    if n < 10 then [digitChar n]
    else natToStrGo fuel (n / 10) ++ [digitChar (n % 10)]

def natToStr (n : Nat) : Str := natToStrGo (n + 1) n

/-- JS `String(n)` for an integral number. -/
def intToStr : Int → Str
  | Int.ofNat n => natToStr n
  | Int.negSucc n => '-' :: natToStr (n + 1)

/-! POSIX `path` model. -/

def splitSegs (p : Str) : List Str := splitOnChar '/' p

def isAbsolutePath (p : Str) : Bool :=
  match p with
  | '/' :: _ => true
  | _ => false

/-- Segment normalization: empty and `.` segments vanish, `..` pops (and is
dropped at the root, as `path.resolve` does for absolute paths). -/
def normSegs (segs : List Str) : List Str :=
  segs.foldl
    (fun acc s =>
      if s = [] ∨ s = ['.'] then acc
      else if s = ['.', '.'] then acc.dropLast
      else acc ++ [s])
    []

def joinSegs (segs : List Str) : Str := joinSep ['/'] segs

/-- Normalize an absolute path. -/
def resolveAbs (p : Str) : Str := '/' :: joinSegs (normSegs (splitSegs p))

def resolveOne (cwd p : Str) : Str :=
  if isAbsolutePath p then resolveAbs p else resolveAbs (cwd ++ '/' :: p)

/-- Node `path.resolve(a, b)` with the process working directory `cwd`
(`resolve` walks its arguments right to left, skipping empty ones, until an
absolute path is built, finally falling back to `cwd`). -/
def jsResolve (cwd a b : Str) : Str :=
  if isAbsolutePath b then resolveAbs b
  else if a = [] then resolveOne cwd b
  else resolveOne cwd (a ++ '/' :: b)

def commonLen : List Str → List Str → Nat
  | a :: as_, b :: bs => if a = b then commonLen as_ bs + 1 else 0
  | _, _ => 0

/-- Node `path.relative(f, t)`: both sides resolved, the common segment
run dropped, `..` segments leading back from `f`, then down into `t`. -/
def jsRelative (cwd f t : Str) : Str :=
  let fs := normSegs (splitSegs (resolveOne cwd f))
  let ts := normSegs (splitSegs (resolveOne cwd t))
  let k := commonLen fs ts
  joinSegs (List.replicate (fs.length - k) ['.', '.'] ++ ts.drop k)

/-! Percent encoding. -/

/-- The characters `encodeURIComponent` leaves unescaped
(`A-Z a-z 0-9 - _ . ! ~ * ' ( )`), by code point. -/
def isUnreserved (c : Char) : Bool :=
  let v := c.toNat
  (65 ≤ v ∧ v ≤ 90) ∨ (97 ≤ v ∧ v ≤ 122) ∨ (48 ≤ v ∧ v ≤ 57) ∨
    v ∈ [45, 95, 46, 33, 126, 42, 39, 40, 41]

def utf8Bytes (c : Char) : List Nat :=
  let v := c.toNat
  if v < 0x80 then [v]
  else if v < 0x800 then [0xC0 + v / 64, 0x80 + v % 64]
  else if v < 0x10000 then [0xE0 + v / 4096, 0x80 + v / 64 % 64, 0x80 + v % 64]
  else [0xF0 + v / 262144, 0x80 + v / 4096 % 64, 0x80 + v / 64 % 64, 0x80 + v % 64]

def hexDigit (n : Nat) : Char :=
  if n < 10 then digitChar n else Char.ofNat ('A'.toNat + (n - 10))

def pctByte (b : Nat) : Str := ['%', hexDigit (b / 16), hexDigit (b % 16)]

def encodeURIComponent (s : Str) : Str :=
  s.flatMap fun c => if isUnreserved c then [c] else (utf8Bytes c).flatMap pctByte

def hexVal (c : Char) : Option Nat :=
  let v := c.toNat
  if 48 ≤ v ∧ v ≤ 57 then some (v - 48)
  else if 65 ≤ v ∧ v ≤ 70 then some (v - 55)
  else if 97 ≤ v ∧ v ≤ 102 then some (v - 87)
  else none

/-- Read one `%XY` escape; `none` models `URIError`. -/
def readByte : Str → Option (Nat × Str)
  | '%' :: a :: b :: rest =>
    match hexVal a, hexVal b with
    | some ha, some hb => some (ha * 16 + hb, rest)
    | _, _ => none
  | _ => none

def readCont (s : Str) : Option (Nat × Str) :=
  match readByte s with
  | some (b, rest) => if 0x80 ≤ b ∧ b < 0xC0 then some (b - 0x80, rest) else none
  | none => none

def mkChar (v : Nat) : Char := Char.ofNat v

theorem readByte_length (s : Str) (b : Nat) (r : Str) (h : readByte s = some (b, r)) :
    r.length + 3 = s.length := by
  unfold readByte at h
  split at h
  · split at h
    · rw [Option.some.injEq, Prod.mk.injEq] at h
      obtain ⟨-, h2⟩ := h
      subst h2
      simp
    · cases h
  · cases h

theorem readCont_length (s : Str) (b : Nat) (r : Str) (h : readCont s = some (b, r)) :
    r.length + 3 = s.length := by
  simp only [readCont] at h
  cases hb : readByte s with
  | none => rw [hb] at h; cases h
  | some v =>
    rw [hb] at h
    obtain ⟨b0, r0⟩ := v
    simp only at h
    split at h
    · rw [Option.some.injEq, Prod.mk.injEq] at h
      obtain ⟨_, h2⟩ := h
      subst h2
      exact readByte_length _ _ _ hb
    · cases h

/-- JS `decodeURIComponent`; `none` models a thrown `URIError` (malformed
escape, overlong/invalid UTF-8, or a surrogate code point).  Fuel-structural:
every step consumes at least one character, so `s.length` fuel suffices (with
fuel `0` the remaining input is empty). -/
def decodeGo : Nat → Str → Option Str
  | 0, s => match s with | [] => some [] | _ => none
  | fuel + 1, s =>
    match s with
    | [] => some []
    | c :: rest =>
      if c = '%' then
        match readByte s with
        | none => none
        | some (b0, r1) =>
          if b0 < 0x80 then
            (decodeGo fuel r1).map fun t => mkChar b0 :: t
          else if b0 < 0xC2 then none
          else if b0 < 0xE0 then
            match readCont r1 with
            | none => none
            | some (b1, r2) =>
              (decodeGo fuel r2).map fun t => mkChar ((b0 - 0xC0) * 64 + b1) :: t
          else if b0 < 0xF0 then
            match readCont r1 with
            | none => none
            | some (b1, r2) =>
              match readCont r2 with
              | none => none
              | some (b2, r3) =>
                let v := (b0 - 0xE0) * 4096 + b1 * 64 + b2
                if v < 0x800 ∨ (0xD800 ≤ v ∧ v < 0xE000) then none
                else (decodeGo fuel r3).map fun t => mkChar v :: t
          else if b0 < 0xF5 then
            match readCont r1 with
            | none => none
            | some (b1, r2) =>
              match readCont r2 with
              | none => none
              | some (b2, r3) =>
                match readCont r3 with
                | none => none
                | some (b3, r4) =>
                  let v := (b0 - 0xF0) * 262144 + b1 * 4096 + b2 * 64 + b3
                  if v < 0x10000 ∨ 0x110000 ≤ v then none
                  else (decodeGo fuel r4).map fun t => mkChar v :: t
          else none
      else
        (decodeGo fuel rest).map fun t => c :: t

def decodeURIComponent (s : Str) : Option Str := decodeGo s.length s

def delimiter : Str := " :: ".data

def stringifyLogEntry (cwd logFilePath : Str) (entry : LogEntry) : Str :=
  let relativeFilePath := jsRelative cwd logFilePath entry.filePath
  let locationParts :=
    match entry.column with
    | none => [relativeFilePath, intToStr entry.line]
    | some c => [relativeFilePath, intToStr entry.line, intToStr c]
  joinSep [':'] locationParts ++ delimiter ++ encodeURIComponent entry.result

structure FileLocation where
  path : Str
  line : Int
  column : Option Int
deriving DecidableEq, Repr

def parseFileLocationFromString (location : Str) : Option FileLocation :=
  let parts := splitOnChar ':' location
  let rawFilePath := parts.headD []
  let lineStr := (parts.get? 1).getD []
  -- `if (!(rawFilePath && lineStr)) return`
  if rawFilePath = [] ∨ lineStr = [] then none
  else
    -- Remove any cache busting artifacts: `rawFilePath.split('?')[0]!`
    let path := (splitOnChar '?' rawFilePath).headD []
    match parseIntJS lineStr with
    | none => none -- `!isFinite(line)`
    | some line =>
      -- `const column = columnStr ? parseInt(columnStr, 10) : undefined`
      let column : Option Int :=
        match (parts.get? 2).getD [] with
        | [] => none
        | cs => parseIntJS cs
      -- `if (!(typeof column === 'number' && isFinite(column))) return`
      match column with
      | none => none
      | some c => some { path := path, line := line, column := some c }

/-- `parseLogEntry`; `Except.error ()` models the `URIError` that
`decodeURIComponent` throws on a malformed escape (uncaught in the source). -/
def parseLogEntry (cwd logFilePath log : Str) : Except Unit (Option LogEntry) :=
  match findSub delimiter log with
  | none => .ok none
  | some delimiterIndex =>
    let location := log.take delimiterIndex
    let encodedResult := log.drop (delimiterIndex + delimiter.length)
    match decodeURIComponent encodedResult with
    | none => .error ()
    | some result =>
      match parseFileLocationFromString location with
      | none => .ok none
      | some loc =>
        .ok (some { filePath := jsResolve cwd logFilePath loc.path,
                    line := loc.line, column := loc.column, result := result })

def fileUriPre : Str := "file://".data

def anonymousCallerFilePre : Str := "at ".data ++ fileUriPre

def atPre : Str := "at ".data

def findLocationInStackTraceLine (line : Str) : Option Str :=
  if anonymousCallerFilePre.isPrefixOf line then
    some (line.drop anonymousCallerFilePre.length)
  else if atPre.isPrefixOf line then
    match findSub ['('] line with
    | none => none
    | some parenStart =>
      let filePathStart := parenStart + 1
      match indexOfFrom [')'] line filePathStart with
      | none => none
      | some filePathEnd =>
        let uri := (line.take filePathEnd).drop filePathStart
        if fileUriPre.isPrefixOf uri then some (uri.drop fileUriPre.length)
        else some uri
  else none

def jsTrim (s : Str) : Str :=
  ((s.dropWhile isSpaceJS).reverse.dropWhile isSpaceJS).reverse

/-- `parseLogEntryFromStackTrace stack value`: `value` is the serialized form
`util.inspect(v)` of the probed value (`inspect` is an external collaborator
that never throws, so it is modelled as the already-produced string). -/
def parseLogEntryFromStackTrace (stack : Str) (value : Str) : Option LogEntry :=
  let lines := (splitLines stack).drop 1
  match lines.get? 1 with
  | none => none
  | some callerLine =>
    let caller := jsTrim callerLine
    if caller = [] then none
    else
      match findLocationInStackTraceLine caller with
      | none => none
      | some location =>
        match parseFileLocationFromString location with
        | none => none
        | some loc =>
          some { filePath := loc.path, line := loc.line, column := loc.column,
                 result := value }

/-! ### Basic facts about the string primitives -/

theorem findSub_none_iff (P X : Str) :
    findSub P X = none ↔ ∀ j, P.isPrefixOf (X.drop j) = false := by
  induction X with
  | nil =>
    simp only [findSub, List.drop_nil]
    constructor
    · intro h j
      split at h
      · cases h
      · rename_i hP
        cases hp : P.isPrefixOf [] with
        | false => rfl
        | true =>
          obtain ⟨t, ht⟩ := isPrefixOf_ex hp
          cases P
          · simp [List.isEmpty] at hP
          · simp at ht
    · intro h
      split
      · rename_i hP
        rw [List.isEmpty_iff] at hP
        subst hP
        have := h 0
        simp [List.isPrefixOf] at this
      · rfl
  | cons c rest ih =>
    simp only [findSub]
    constructor
    · intro h j
      split at h
      · cases h
      · rename_i hp
        simp only [Option.map_eq_none'] at h
        cases j with
        | zero => simpa using Bool.eq_false_iff.mpr hp
        | succ j' => simpa using (ih.mp h) j'
    · intro h
      rw [if_neg (by simpa using Bool.eq_false_iff.mp (h 0))]
      simp only [Option.map_eq_none']
      exact ih.mpr fun j => by simpa using h (j + 1)

theorem findSub_some_min (P X : Str) (i : Nat) (h : findSub P X = some i) :
    ∀ j, j < i → P.isPrefixOf (X.drop j) = false := by
  induction X generalizing i with
  | nil =>
    simp only [findSub] at h
    split at h
    · cases h; omega
    · cases h
  | cons c rest ih =>
    simp only [findSub] at h
    split at h
    · cases h; omega
    · rename_i hp
      cases hr : findSub P rest with
      | none => rw [hr] at h; cases h
      | some k =>
        rw [hr] at h
        simp only [Option.map_some'] at h
        cases h
        intro j hj
        cases j with
        | zero => simpa using Bool.eq_false_iff.mpr hp
        | succ j' => simpa using ih k hr j' (by omega)

theorem findSub_some_of (P X : Str) (i : Nat)
    (h1 : P.isPrefixOf (X.drop i) = true)
    (h2 : ∀ j, j < i → P.isPrefixOf (X.drop j) = false) :
    findSub P X = some i := by
  induction X generalizing i with
  | nil =>
    simp only [List.drop_nil] at h1
    obtain ⟨t, ht⟩ := isPrefixOf_ex h1
    cases P with
    | nil =>
      simp only [findSub, List.isEmpty_nil, if_true]
      cases i with
      | zero => rfl
      | succ i' =>
        have := h2 0 (by omega)
        simp [List.isPrefixOf] at this
    | cons a as => simp at ht
  | cons c rest ih =>
    simp only [findSub]
    cases i with
    | zero =>
      simp only [List.drop_zero] at h1
      rw [if_pos h1]
    | succ i' =>
      rw [if_neg (by simpa using Bool.eq_false_iff.mp (h2 0 (by omega)))]
      have := ih i' (by simpa using h1) (fun j hj => by simpa using h2 (j + 1) (by omega))
      rw [this]
      rfl

theorem containsSub_exists (P X : Str) :
    containsSub P X = true ↔ ∃ pre post, X = pre ++ P ++ post := by
  constructor
  · intro h
    simp only [containsSub, Option.isSome_iff_exists] at h
    obtain ⟨i, hi⟩ := h
    obtain ⟨_, h2⟩ := findSub_some_le _ _ _ hi
    obtain ⟨t, ht⟩ := isPrefixOf_ex h2
    refine ⟨X.take i, t, ?_⟩
    rw [List.append_assoc, ← ht, List.take_append_drop]
  · rintro ⟨pre, post, rfl⟩
    simp only [containsSub]
    induction pre with
    | nil =>
      have : P.isPrefixOf (P ++ post) = true := isPrefixOf_of_ex P post
      cases P with
      | nil => cases post <;> simp [findSub, List.isPrefixOf, containsSub]
      | cons a as =>
        simp only [List.nil_append, List.cons_append, findSub]
        rw [if_pos (by simpa using this)]
        rfl
    | cons c cs ih =>
      simp only [List.cons_append, findSub]
      split
      · rfl
      · simpa using ih

theorem containsSub_of_middle (P t : Str) (pre post : Str)
    (h : containsSub P t = true) : containsSub P (pre ++ t ++ post) = true := by
  rw [containsSub_exists] at h ⊢
  obtain ⟨a, b, rfl⟩ := h
  exact ⟨pre ++ a, b ++ post, by simp⟩

theorem containsSub_false_mono (P t : Str) (pre post : Str)
    (h : containsSub P (pre ++ t ++ post) = false) : containsSub P t = false := by
  cases hc : containsSub P t with
  | false => rfl
  | true => rw [containsSub_of_middle P t pre post hc] at h; cases h

theorem splitOnChar_head_concat (sep : Char) (s : Str) :
    ∃ post, s = (splitOnChar sep s).headD [] ++ post := by
  induction s with
  | nil => exact ⟨[], rfl⟩
  | cons c rest ih =>
    simp only [splitOnChar]
    by_cases hc : c = sep
    · rw [if_pos hc]
      exact ⟨c :: rest, rfl⟩
    · rw [if_neg hc]
      cases hsp : splitOnChar sep rest with
      | nil => exact absurd hsp (splitOnChar_ne_nil sep rest)
      | cons x xs =>
        rw [hsp] at ih
        obtain ⟨post, hpost⟩ := ih
        exact ⟨post, by simpa using congrArg (c :: ·) hpost⟩

theorem mem_splitOnChar (sep : Char) (s : Str) (l : Str) (h : l ∈ splitOnChar sep s) :
    (∃ pre post, s = pre ++ l ++ post) ∧ sep ∉ l := by
  induction s generalizing l with
  | nil =>
    simp only [splitOnChar, List.mem_singleton] at h
    subst h
    exact ⟨⟨[], [], rfl⟩, by simp⟩
  | cons c rest ih =>
    simp only [splitOnChar] at h
    by_cases hc : c = sep
    · rw [if_pos hc] at h
      rcases List.mem_cons.mp h with h | h
      · subst h
        exact ⟨⟨[], c :: rest, rfl⟩, by simp⟩
      · obtain ⟨⟨pre, post, hs⟩, hm⟩ := ih l h
        exact ⟨⟨c :: pre, post, by simp [hs]⟩, hm⟩
    · rw [if_neg hc] at h
      cases hsp : splitOnChar sep rest with
      | nil => exact absurd hsp (splitOnChar_ne_nil sep rest)
      | cons x xs =>
        rw [hsp] at h
        rcases List.mem_cons.mp h with h | h
        · subst h
          have hx : x ∈ splitOnChar sep rest := by rw [hsp]; exact List.mem_cons_self x xs
          obtain ⟨_, hmx⟩ := ih x hx
          obtain ⟨post, hpost⟩ := splitOnChar_head_concat sep rest
          rw [hsp] at hpost
          simp only [List.headD_cons] at hpost
          refine ⟨⟨[], post, by simpa using congrArg (c :: ·) hpost⟩, ?_⟩
          simp only [List.mem_cons]
          rintro (rfl | hmem)
          · exact hc rfl
          · exact hmx hmem
        · obtain ⟨⟨pre, post, hs⟩, hm⟩ := ih l (by rw [hsp]; exact List.mem_cons_of_mem x h)
          exact ⟨⟨c :: pre, post, by simp [hs]⟩, hm⟩

theorem splitOnChar_append_sep (sep : Char) (a b : Str) :
    splitOnChar sep (a ++ sep :: b) = splitOnChar sep a ++ splitOnChar sep b := by
  induction a with
  | nil => simp [splitOnChar]
  | cons c as ih =>
    simp only [List.cons_append, splitOnChar, List.append_eq]
    by_cases hc : c = sep
    · rw [if_pos hc, if_pos hc, ih]
      simp
    · rw [if_neg hc, if_neg hc, ih]
      cases hsp : splitOnChar sep as with
      | nil => exact absurd hsp (splitOnChar_ne_nil sep as)
      | cons x xs => simp

theorem splitOnChar_single (sep : Char) (x : Str) (h : sep ∉ x) :
    splitOnChar sep x = [x] := by
  induction x with
  | nil => rfl
  | cons c cs ih =>
    simp only [List.mem_cons, not_or] at h
    simp only [splitOnChar, ih h.2]
    rw [if_neg (fun hc => h.1 hc.symm)]

theorem split_join (sep : Char) (X : List Str) (hX : X ≠ [])
    (h : ∀ l ∈ X, sep ∉ l) :
    splitOnChar sep (joinSep [sep] X) = X := by
  induction X with
  | nil => exact absurd rfl hX
  | cons x xs ih =>
    cases xs with
    | nil =>
      simp only [joinSep]
      exact splitOnChar_single sep x (h x (by simp))
    | cons y ys =>
      rw [joinSep_cons _ _ _ (by simp), List.append_assoc]
      simpa [splitOnChar_single sep x (h x (by simp)),
        splitOnChar_append_sep sep x (joinSep [sep] (y :: ys))] using
        ih (by simp) (fun l hl => h l (List.mem_cons_of_mem x hl))

theorem findSub_char_none_iff (ch : Char) (X : Str) :
    findSub [ch] X = none ↔ ch ∉ X := by
  induction X with
  | nil => simp [findSub, List.isEmpty]
  | cons c rest ih =>
    simp only [findSub, List.isPrefixOf, List.mem_cons]
    by_cases hc : ch = c
    · subst hc
      simp [List.isPrefixOf]
    · have : ((ch == c) && List.isPrefixOf [] rest) = false := by
        simp [List.isPrefixOf]
        exact fun hh => absurd hh hc
      rw [if_neg (by simp only [List.isPrefixOf, Bool.and_true]; simp only [beq_iff_eq]; exact hc)]
      simp only [Option.map_eq_none']
      rw [ih]
      constructor
      · intro hm
        rintro (rfl | hmem)
        · exact hc rfl
        · exact hm hmem
      · intro hm hmem
        exact hm (Or.inr hmem)

theorem containsSub_char_iff (ch : Char) (X : Str) :
    containsSub [ch] X = true ↔ ch ∈ X := by
  constructor
  · intro h
    obtain ⟨pre, post, rfl⟩ := (containsSub_exists _ _).mp h
    simp
  · intro h
    cases hf : findSub [ch] X with
    | none => exact absurd ((findSub_char_none_iff ch X).mp hf) (by simpa using h)
    | some i => simp [containsSub, hf]

theorem takeBeforeSub_of_not_contains (P X : Str) (h : containsSub P X = false) :
    takeBeforeSub P X = X := by
  unfold takeBeforeSub
  cases hf : findSub P X with
  | none => rfl
  | some i => rw [containsSub, hf] at h; simp at h

theorem isPrefixOf_getD {P Y : Str} (h : P.isPrefixOf Y = true) (m : Nat)
    (hm : m < P.length) (d : Char) : Y.getD m d = P.getD m d := by
  obtain ⟨t, rfl⟩ := isPrefixOf_ex h
  simp only [List.getD_eq_getElem?_getD]
  rw [List.getElem?_append_left hm]

theorem getD_drop (X : Str) (j m : Nat) (d : Char) :
    (X.drop j).getD m d = X.getD (j + m) d := by
  simp only [List.getD_eq_getElem?_getD]
  rw [List.getElem?_drop]

theorem isPrefixOf_take (n : Nat) (X : Str) : (X.take n).isPrefixOf X = true := by
  have h := isPrefixOf_of_ex (X.take n) (X.drop n)
  rwa [List.take_append_drop] at h

theorem not_contains_no_prefix_inside (P l : Str) (j : Nat)
    (hno : containsSub P l = false) (hj : j + P.length ≤ l.length)
    (hpre : P.isPrefixOf (l.drop j) = true) : False := by
  obtain ⟨t, ht⟩ := isPrefixOf_ex hpre
  have : l = l.take j ++ P ++ t := by
    rw [List.append_assoc, ← ht, List.take_append_drop]
  rw [(containsSub_exists P l).mpr ⟨l.take j, t, this⟩] at hno
  cases hno

/-- If `P` occurs nowhere in `l` and no positive shift of `P` matches its own
first character, then the first occurrence of `P` in `l ++ P ++ r` is exactly
at the boundary. -/
theorem findSub_append_self (P l r : Str) (hP : P ≠ [])
    (hno : containsSub P l = false)
    (hhead : ∀ m, m < P.length → 0 < m → P.getD m ' ' ≠ P.getD 0 ' ') :
    findSub P (l ++ P ++ r) = some l.length := by
  apply findSub_some_of
  · rw [List.append_assoc, List.drop_left]
    exact isPrefixOf_of_ex P r
  · intro j hj
    by_contra hcon
    have hpre : P.isPrefixOf ((l ++ P ++ r).drop j) = true := by
      cases hh : P.isPrefixOf ((l ++ P ++ r).drop j) with
      | true => rfl
      | false => exact absurd hh hcon
    by_cases hle : j + P.length ≤ l.length
    · -- the occurrence would sit entirely inside `l`
      have hpre' : P.isPrefixOf (l.drop j) = true := by
        obtain ⟨t, ht⟩ := isPrefixOf_ex hpre
        have hdrop : (l ++ P ++ r).drop j = l.drop j ++ (P ++ r) := by
          rw [List.append_assoc, List.drop_append_of_le_length (by omega)]
        rw [hdrop] at ht
        have h' := congrArg (List.take P.length) ht
        rw [List.take_left' rfl, List.take_append_of_le_length (by simp; omega)] at h'
        rw [← h']
        exact isPrefixOf_take _ _
      exact not_contains_no_prefix_inside P l j hno hle hpre'
    · -- straddling occurrence: position `l.length` carries `P`'s head
      have hm : 0 < l.length - j ∧ l.length - j < P.length := by
        constructor <;> omega
      have h1 : ((l ++ P ++ r).drop j).getD (l.length - j) ' ' = P.getD (l.length - j) ' ' :=
        isPrefixOf_getD hpre _ hm.2 ' '
      rw [getD_drop] at h1
      have hidx : j + (l.length - j) = l.length := by omega
      rw [hidx] at h1
      have h2 : (l ++ P ++ r).getD l.length ' ' = P.getD 0 ' ' := by
        rw [List.append_assoc]
        simp only [List.getD_eq_getElem?_getD]
        rw [List.getElem?_append_right (Nat.le_refl _), Nat.sub_self]
        cases P with
        | nil => exact absurd rfl hP
        | cons p ps => simp
      rw [h2] at h1
      exact hhead _ hm.2 hm.1 h1.symm

/-- Variant: the last character of `l` does not occur in `P` at all. -/
theorem findSub_append_self_lastchar (P l r : Str) (hP : P ≠ []) (hl : l ≠ [])
    (hno : containsSub P l = false)
    (hlast : ∀ m, m < P.length → P.getD m ' ' ≠ l.getD (l.length - 1) ' ') :
    findSub P (l ++ P ++ r) = some l.length := by
  apply findSub_some_of
  · rw [List.append_assoc, List.drop_left]
    exact isPrefixOf_of_ex P r
  · intro j hj
    by_contra hcon
    have hpre : P.isPrefixOf ((l ++ P ++ r).drop j) = true := by
      cases hh : P.isPrefixOf ((l ++ P ++ r).drop j) with
      | true => rfl
      | false => exact absurd hh hcon
    by_cases hle : j + P.length ≤ l.length
    · have hpre' : P.isPrefixOf (l.drop j) = true := by
        obtain ⟨t, ht⟩ := isPrefixOf_ex hpre
        have hdrop : (l ++ P ++ r).drop j = l.drop j ++ (P ++ r) := by
          rw [List.append_assoc, List.drop_append_of_le_length (by omega)]
        rw [hdrop] at ht
        have h' := congrArg (List.take P.length) ht
        rw [List.take_left' rfl, List.take_append_of_le_length (by simp; omega)] at h'
        rw [← h']
        exact isPrefixOf_take _ _
      exact not_contains_no_prefix_inside P l j hno hle hpre'
    · have hm : l.length - 1 - j < P.length := by omega
      have h1 : ((l ++ P ++ r).drop j).getD (l.length - 1 - j) ' ' =
          P.getD (l.length - 1 - j) ' ' := isPrefixOf_getD hpre _ hm ' '
      rw [getD_drop] at h1
      have hidx : j + (l.length - 1 - j) = l.length - 1 := by omega
      rw [hidx] at h1
      have hlen : l.length - 1 < l.length := by
        cases l with
        | nil => exact absurd rfl hl
        | cons a as => simp
      have h2 : (l ++ P ++ r).getD (l.length - 1) ' ' = l.getD (l.length - 1) ' ' := by
        simp only [List.getD_eq_getElem?_getD]
        rw [List.getElem?_append_left (by simp only [List.length_append]; omega),
          List.getElem?_append_left hlen]
      rw [h2] at h1
      exact hlast _ hm h1.symm

theorem takeBeforeSub_append_marker (l rs : Str)
    (hno : containsSub trailingCommentStart l = false) :
    takeBeforeSub trailingCommentStart (l ++ trailingCommentStart ++ rs) = l := by
  unfold takeBeforeSub
  rw [findSub_append_self trailingCommentStart l rs (by decide) hno (by decide)]
  show (l ++ trailingCommentStart ++ rs).take l.length = l
  rw [List.append_assoc]
  exact List.take_left l _

theorem map_id_of_eq {α : Type} (l : List α) (f : α → α) (h : ∀ a ∈ l, f a = a) :
    l.map f = l := by
  induction l with
  | cons x xs ih =>
    rw [List.map_cons, h x (by simp), ih fun a ha => h a (List.mem_cons_of_mem x ha)]
  | nil => rfl

theorem filterMap_id_map_some (L : List Str) : (L.map some).filterMap id = L := by
  induction L with
  | cons a as ih => simp [ih]
  | nil => rfl

theorem containsSub_eq_false_findSub (P X : Str) (h : containsSub P X = false) :
    findSub P X = none := by
  cases hf : findSub P X with
  | none => rfl
  | some i => rw [containsSub, hf] at h; simp at h

theorem stripTrailing_id_of_clean (T : Str)
    (h : containsSub trailingCommentStart T = false) :
    stripTrailingLogComments T = T := by
  unfold stripTrailingLogComments
  rw [map_id_of_eq]
  · exact joinLines_splitLines T
  · intro l hl
    obtain ⟨⟨pre, post, hT⟩, _⟩ := mem_splitOnChar '\n' T l hl
    have hc : containsSub trailingCommentStart l = false :=
      containsSub_false_mono _ _ pre post (hT ▸ h)
    rw [hc]
    simp

theorem stripMultiGo_id_of_clean (fuel : Nat) (T : Str)
    (h : containsSub multiLineCommentStart T = false) :
    stripMultiGo fuel T = T := by
  cases fuel with
  | zero => rfl
  | succ f => simp [stripMultiGo, containsSub_eq_false_findSub _ _ h]

theorem stripMulti_id_of_clean (T : Str)
    (h : containsSub multiLineCommentStart T = false) :
    stripMultiLineLogComments T = T :=
  stripMultiGo_id_of_clean T.length T h

theorem strip_id_of_clean (T : Str)
    (h1 : containsSub trailingCommentStart T = false)
    (h2 : containsSub multiLineCommentStart T = false) :
    stripLogEntriesFromFileContent T = T := by
  unfold stripLogEntriesFromFileContent
  rw [stripTrailing_id_of_clean T h1, stripMulti_id_of_clean T h2]

/-! ### Simulation machinery for idempotence of `apply`

In the regime where every result is free of `'('`, `')'` and `'\n'`, applying
a group only ever appends (or replaces) a trailing-comment tail on one line.
`TailRelP L P` says the line list `P` is the pure line list `L` with such an
optional tail on each line. -/

def cleanTail (t : Str) : Prop :=
  '(' ∉ t ∧ ')' ∉ t ∧ '\n' ∉ t ∧
    (t = [] ∨ ∃ rs, t = trailingCommentStart ++ rs)

/-- The tail appended by the trailing branch of `applyGroup`. -/
def mkTail (entries : List LogEntry) : Str :=
  trailingCommentStart ++ ' ' :: joinSep [',', ' '] (entries.map (·.result))

inductive TailRelP : List Str → List Str → Prop
  | nil : TailRelP [] []
  | cons {l t : Str} {L P : List Str} : cleanTail t → (t ≠ [] → l ≠ []) →
      TailRelP L P → TailRelP (l :: L) ((l ++ t) :: P)

theorem TailRelP.length_eq {L P : List Str} (h : TailRelP L P) :
    P.length = L.length := by
  induction h with
  | nil => rfl
  | cons _ _ _ ih => simp [ih]

theorem TailRelP.refl (L : List Str) : TailRelP L L := by
  induction L with
  | nil => exact .nil
  | cons l ls ih =>
    have := TailRelP.cons (t := []) (l := l)
      ⟨by simp, by simp, by simp, Or.inl rfl⟩ (by simp) ih
    simpa using this

theorem TailRelP.drop {L P : List Str} (h : TailRelP L P) (k : Nat) :
    TailRelP (L.drop k) (P.drop k) := by
  induction k generalizing L P with
  | zero => simpa using h
  | succ k ih =>
    cases h with
    | nil => exact .nil
    | cons hc hne hrest => simpa using ih hrest

theorem TailRelP.get? {L P : List Str} (h : TailRelP L P) (i : Nat) (l : Str)
    (hget : L.get? i = some l) :
    ∃ t, cleanTail t ∧ (t ≠ [] → l ≠ []) ∧ P.get? i = some (l ++ t) := by
  induction h generalizing i with
  | nil => simp at hget
  | cons hc hne hrest ih =>
    cases i with
    | zero =>
      simp only [List.get?_cons_zero, Option.some.injEq] at hget
      subst hget
      exact ⟨_, hc, hne, rfl⟩
    | succ i' => exact ih i' hget

theorem TailRelP.get?_none {L P : List Str} (h : TailRelP L P) (i : Nat)
    (hget : L.get? i = none) : P.get? i = none := by
  rw [List.get?_eq_none] at hget ⊢
  rw [h.length_eq]
  exact hget

theorem TailRelP.set {L P : List Str} (h : TailRelP L P) (i : Nat) (t : Str)
    (hc : cleanTail t) (hne : t ≠ [] → L.getD i [] ≠ []) :
    TailRelP L (P.set i (L.getD i [] ++ t)) := by
  induction h generalizing i with
  | nil => simpa using TailRelP.nil
  | @cons l t0 L0 P0 hc0 hne0 hrest ih =>
    cases i with
    | zero =>
      simp only [List.set_cons_zero]
      exact TailRelP.cons hc (by simpa using hne) hrest
    | succ i' =>
      simp only [List.set_cons_succ]
      exact TailRelP.cons hc0 hne0 (ih i' (by simpa using hne))

theorem TailRelP.no_newline {L P : List Str} (h : TailRelP L P)
    (hL : ∀ l ∈ L, '\n' ∉ l) : ∀ x ∈ P, '\n' ∉ x := by
  induction h with
  | nil => simp
  | @cons l t L0 P0 hc _ _ ih =>
    intro x hx
    rcases List.mem_cons.mp hx with rfl | hx'
    · intro hmem
      rcases List.mem_append.mp hmem with hmem | hmem
      · exact hL l (by simp) hmem
      · exact hc.2.2.1 hmem
    · exact ih (fun l' hl' => hL l' (List.mem_cons_of_mem _ hl')) x hx'

theorem mem_joinSep (sep : Str) (X : List Str) (c : Char) (h : c ∈ joinSep sep X) :
    c ∈ sep ∨ ∃ x ∈ X, c ∈ x := by
  induction X with
  | nil => simp [joinSep] at h
  | cons x xs ih =>
    cases xs with
    | nil =>
      simp only [joinSep] at h
      exact Or.inr ⟨x, by simp, h⟩
    | cons y ys =>
      rw [joinSep_cons _ _ _ (by simp)] at h
      rcases List.mem_append.mp h with h' | h'
      · rcases List.mem_append.mp h' with h'' | h''
        · exact Or.inr ⟨x, by simp, h''⟩
        · exact Or.inl h''
      · rcases ih h' with h'' | ⟨z, hz, hcz⟩
        · exact Or.inl h''
        · exact Or.inr ⟨z, List.mem_cons_of_mem x hz, hcz⟩

theorem cleanTail_mkTail (entries : List LogEntry)
    (hres : ∀ e ∈ entries, '(' ∉ e.result ∧ ')' ∉ e.result ∧ '\n' ∉ e.result) :
    cleanTail (mkTail entries) := by
  have hj : ∀ c, c ∈ joinSep [',', ' '] (entries.map (·.result)) →
      c ≠ '(' ∧ c ≠ ')' ∧ c ≠ '\n' := by
    intro c hc
    rcases mem_joinSep _ _ _ hc with hsep | ⟨x, hx, hcx⟩
    · rcases List.mem_cons.mp hsep with rfl | hsep'
      · refine ⟨by decide, by decide, by decide⟩
      · rcases List.mem_singleton.mp hsep' with rfl
        refine ⟨by decide, by decide, by decide⟩
    · obtain ⟨e, he, rfl⟩ := List.mem_map.mp hx
      obtain ⟨h1, h2, h3⟩ := hres e he
      exact ⟨fun hcc => h1 (hcc ▸ hcx), fun hcc => h2 (hcc ▸ hcx),
        fun hcc => h3 (hcc ▸ hcx)⟩
  refine ⟨?_, ?_, ?_, Or.inr ⟨_, rfl⟩⟩ <;> intro hmem <;>
    rcases List.mem_append.mp hmem with hm | hm
  · exact absurd hm (by decide)
  · rcases List.mem_cons.mp hm with hm' | hm'
    · exact absurd hm'.symm (by decide)
    · exact (hj _ hm').1 rfl
  · exact absurd hm (by decide)
  · rcases List.mem_cons.mp hm with hm' | hm'
    · exact absurd hm'.symm (by decide)
    · exact (hj _ hm').2.1 rfl
  · exact absurd hm (by decide)
  · rcases List.mem_cons.mp hm with hm' | hm'
    · exact absurd hm'.symm (by decide)
    · exact (hj _ hm').2.2 rfl

theorem findSub_char_append (ch : Char) (l t : Str) (ht : ch ∉ t) :
    findSub [ch] (l ++ t) = findSub [ch] l := by
  induction l with
  | nil =>
    simp only [List.nil_append]
    rw [(findSub_char_none_iff ch t).mpr ht]
    rfl
  | cons c l' ih =>
    simp only [List.cons_append, findSub, List.append_eq]
    have hpre : ∀ rest : Str, ([ch].isPrefixOf (c :: rest)) = (ch == c) := by
      intro rest
      simp [List.isPrefixOf]
    rw [hpre, hpre]
    by_cases hc : ch = c
    · simp [hc]
    · rw [if_neg (by simpa using hc), if_neg (by simpa using hc), ih]

theorem lineScan_append (a b : Str) (d : Nat) :
    lineScan (a ++ b) d =
      match lineScan a d with
      | none => none
      | some d' => lineScan b d' := by
  induction a generalizing d with
  | nil => simp [lineScan]
  | cons c a' ih =>
    simp only [List.cons_append, lineScan, List.append_eq]
    set x := if c = '(' then d + 1 else if c = ')' then d - 1 else d with hx
    by_cases hz : x = 0
    · rw [if_pos hz]
      rw [if_pos hz]
    · rw [if_neg hz]
      rw [if_neg hz]
      exact ih x

theorem lineScan_some_ge_one (a : Str) (d d' : Nat) (hd : 1 ≤ d)
    (h : lineScan a d = some d') : 1 ≤ d' := by
  induction a generalizing d with
  | nil =>
    simp only [lineScan, Option.some.injEq] at h
    omega
  | cons c a' ih =>
    simp only [lineScan] at h
    set x := if c = '(' then d + 1 else if c = ')' then d - 1 else d with hx
    by_cases hz : x = 0
    · rw [if_pos hz] at h; cases h
    · rw [if_neg hz] at h
      exact ih x (by omega) h

theorem lineScan_no_paren (t : Str) (d : Nat) (hd : d ≠ 0)
    (h1 : '(' ∉ t) (h2 : ')' ∉ t) : lineScan t d = some d := by
  induction t with
  | nil => rfl
  | cons c t' ih =>
    simp only [List.mem_cons, not_or] at h1 h2
    simp only [lineScan, if_neg (fun hc : c = '(' => h1.1 (by simp [hc])),
      if_neg (fun hc : c = ')' => h2.1 (by simp [hc]))]
    rw [if_neg hd]
    exact ih h1.2 h2.2

theorem lineScan_append_clean (a t : Str) (d : Nat) (hd : 1 ≤ d)
    (h1 : '(' ∉ t) (h2 : ')' ∉ t) :
    lineScan (a ++ t) d = lineScan a d := by
  rw [lineScan_append]
  cases ha : lineScan a d with
  | none => rfl
  | some d' =>
    exact lineScan_no_paren t d' (by have := lineScan_some_ge_one a d d' hd ha; omega) h1 h2

theorem lineScan_none_close (a : Str) (d : Nat) (hd : 1 ≤ d)
    (h : lineScan a d = none) : ')' ∈ a := by
  induction a generalizing d with
  | nil => simp [lineScan] at h
  | cons c a' ih =>
    simp only [lineScan] at h
    set x := if c = '(' then d + 1 else if c = ')' then d - 1 else d with hx
    by_cases hz : x = 0
    · have hc : c = ')' := by
        by_contra hcc
        by_cases hco : c = '('
        · rw [if_pos hco] at hx; omega
        · rw [if_neg hco, if_neg hcc] at hx; omega
      simp [hc]
    · rw [if_neg hz] at h
      exact List.mem_cons_of_mem c (ih x (by omega) h)

theorem scanRest_stable {L P : List Str} (h : TailRelP L P) (i d : Nat) (hd : 1 ≤ d) :
    scanRest (P.map some) i d = scanRest (L.map some) i d := by
  induction h generalizing i d with
  | nil => rfl
  | @cons l t L0 P0 hc hne hrest ih =>
    simp only [List.map_cons, scanRest, lineScanO]
    rw [lineScan_append_clean l t d hd hc.1 hc.2.1]
    cases hs : lineScan l d with
    | none => rfl
    | some d' => exact ih _ _ (lineScan_some_ge_one l d d' hd hs)

theorem scanRest_some_close (L : List Str) (i0 d i : Nat) (hd : 1 ≤ d)
    (h : scanRest (L.map some) i0 d = some i) :
    ∃ l, L.get? (i - i0) = some l ∧ ')' ∈ l ∧ i0 ≤ i := by
  induction L generalizing i0 d with
  | nil => simp [scanRest] at h
  | cons l ls ih =>
    simp only [List.map_cons, scanRest, lineScanO] at h
    cases hs : lineScan l d with
    | none =>
      rw [hs] at h
      cases h
      exact ⟨l, by simp, lineScan_none_close l d hd hs, Nat.le_refl _⟩
    | some d' =>
      rw [hs] at h
      obtain ⟨l', hget, hcl, hle⟩ := ih (i0 + 1) d'
        (lineScan_some_ge_one l d d' hd hs) h
      refine ⟨l', ?_, hcl, by omega⟩
      have : i - i0 = (i - (i0 + 1)) + 1 := by omega
      rw [this]
      simpa using hget

theorem indexOf_paren_stable (l t : Str) (ht : '(' ∉ t) (col : Option Int) :
    indexOfFrom ['('] (l ++ t) (clampStart (l ++ t).length col) =
      indexOfFrom ['('] l (clampStart l.length col) := by
  cases col with
  | none =>
    simp only [clampStart, indexOfFrom, List.drop_length]
    rfl
  | some k =>
    simp only [clampStart]
    by_cases hneg : k < 0
    · rw [if_pos hneg, if_pos hneg]
      unfold indexOfFrom
      rw [List.drop_zero, List.drop_zero, findSub_char_append _ _ _ ht]
    · rw [if_neg hneg, if_neg hneg]
      by_cases hkl : k.toNat ≤ l.length
      · have h1 : min k.toNat (l ++ t).length = k.toNat := by
          simp only [List.length_append]
          omega
        have h2 : min k.toNat l.length = k.toNat := by omega
        rw [h1, h2]
        unfold indexOfFrom
        rw [List.drop_append_of_le_length hkl, findSub_char_append _ _ _ ht]
      · have h2 : min k.toNat l.length = l.length := by omega
        rw [h2]
        have hpure : indexOfFrom ['('] l l.length = none := by
          unfold indexOfFrom
          rw [List.drop_length]
          rfl
        rw [hpure]
        set c1 := min k.toNat (l ++ t).length with hc1
        have hge : l.length ≤ c1 := by
          simp only [hc1, List.length_append]
          omega
        unfold indexOfFrom
        have hdrop : (l ++ t).drop c1 = t.drop (c1 - l.length) := by
          have heq : c1 = l.length + (c1 - l.length) := by omega
          conv_lhs => rw [heq]
          rw [← List.drop_drop, List.drop_left]
        rw [hdrop]
        have : findSub ['('] (t.drop (c1 - l.length)) = none := by
          rw [findSub_char_none_iff]
          intro hmem
          exact ht (List.mem_of_mem_drop hmem)
        rw [this]
        rfl

theorem indexOfFrom_paren_lt (l : Str) (c p : Nat)
    (h : indexOfFrom ['('] l c = some p) : p + 1 ≤ l.length := by
  rcases indexOfFrom_some_le _ _ _ _ h with h' | h'
  · simpa using h'
  · simp at h'

/-- The body of `findCallEndLineIndex` after the anchor line has been
fetched (proof-side abbreviation). -/
def callEndCore (col : Option Int) (line : Str) (idx : Nat)
    (rest : List (Option Str)) : Option Nat :=
  if line = [] then none
  else
    match indexOfFrom ['('] line (clampStart line.length col) with
    | none => none
    | some parenStartIndex =>
      match lineScan (line.drop (parenStartIndex + 1)) 1 with
      | none => some idx
      | some d => scanRest rest (idx + 1) d

theorem findCallEnd_eq_core (n : Int) (col : Option Int) (lines : List (Option Str)) :
    findCallEndLineIndex ⟨n, col⟩ lines =
      if n < 1 then none
      else
        match lines.get? (n - 1).toNat with
        | some (some line) =>
          callEndCore col line (n - 1).toNat (lines.drop ((n - 1).toNat + 1))
        | _ => none := rfl

theorem findCallEnd_stable {L P : List Str} (h : TailRelP L P) (n : Int)
    (col : Option Int) :
    findCallEndLineIndex ⟨n, col⟩ (P.map some) =
      findCallEndLineIndex ⟨n, col⟩ (L.map some) := by
  rw [findCallEnd_eq_core, findCallEnd_eq_core]
  by_cases hn : n < 1
  · rw [if_pos hn, if_pos hn]
  · rw [if_neg hn, if_neg hn]
    rw [List.get?_map, List.get?_map]
    cases hL : L.get? (n - 1).toNat with
    | none =>
      rw [h.get?_none _ hL]
      rfl
    | some l =>
      obtain ⟨t, hct, hne, hPget⟩ := h.get? _ _ hL
      rw [hPget]
      show callEndCore col (l ++ t) (n - 1).toNat ((P.map some).drop ((n - 1).toNat + 1)) =
        callEndCore col l (n - 1).toNat ((L.map some).drop ((n - 1).toNat + 1))
      unfold callEndCore
      by_cases hl : l = []
      · have ht : t = [] := by
          by_contra htne
          exact hne htne hl
        rw [hl, ht]
        simp
      · rw [if_neg (by simp [hl]), if_neg hl]
        rw [indexOf_paren_stable l t hct.1 col]
        cases hio : indexOfFrom ['('] l (clampStart l.length col) with
        | none => rfl
        | some p =>
          have hp := indexOfFrom_paren_lt l _ p hio
          have hdrop : (l ++ t).drop (p + 1) = l.drop (p + 1) ++ t :=
            List.drop_append_of_le_length hp
          show (match lineScan ((l ++ t).drop (p + 1)) 1 with
            | none => some (n - 1).toNat
            | some d =>
              scanRest ((P.map some).drop ((n - 1).toNat + 1)) ((n - 1).toNat + 1) d) =
            match lineScan (l.drop (p + 1)) 1 with
            | none => some (n - 1).toNat
            | some d =>
              scanRest ((L.map some).drop ((n - 1).toNat + 1)) ((n - 1).toNat + 1) d
          rw [hdrop, lineScan_append_clean _ t 1 (Nat.le_refl 1) hct.1 hct.2.1]
          cases hsc : lineScan (l.drop (p + 1)) 1 with
          | none => rfl
          | some d =>
            show scanRest ((P.map some).drop ((n - 1).toNat + 1)) ((n - 1).toNat + 1) d =
              scanRest ((L.map some).drop ((n - 1).toNat + 1)) ((n - 1).toNat + 1) d
            rw [← List.map_drop, ← List.map_drop]
            exact scanRest_stable (h.drop ((n - 1).toNat + 1)) _ _
              (lineScan_some_ge_one _ _ _ (Nat.le_refl 1) hsc)

theorem findCallEnd_some_close (L : List Str) (n : Int) (col : Option Int) (i : Nat)
    (h : findCallEndLineIndex ⟨n, col⟩ (L.map some) = some i) :
    ∃ l, L.get? i = some l ∧ l ≠ [] := by
  rw [findCallEnd_eq_core] at h
  by_cases hn : n < 1
  · rw [if_pos hn] at h; cases h
  · rw [if_neg hn, List.get?_map] at h
    cases hL : L.get? (n - 1).toNat with
    | none => rw [hL] at h; cases h
    | some l =>
      rw [hL] at h
      replace h : callEndCore col l (n - 1).toNat
          ((L.map some).drop ((n - 1).toNat + 1)) = some i := h
      unfold callEndCore at h
      by_cases hl : l = []
      · rw [if_pos hl] at h; cases h
      · rw [if_neg hl] at h
        cases hio : indexOfFrom ['('] l (clampStart l.length col) with
        | none => rw [hio] at h; cases h
        | some p =>
          rw [hio] at h
          replace h : (match lineScan (l.drop (p + 1)) 1 with
            | none => some ((n - 1).toNat)
            | some d =>
              scanRest ((L.map some).drop ((n - 1).toNat + 1))
                ((n - 1).toNat + 1) d) = some i := h
          cases hsc : lineScan (l.drop (p + 1)) 1 with
          | none =>
            rw [hsc] at h
            cases h
            exact ⟨l, hL, hl⟩
          | some d =>
            rw [hsc] at h
            replace h : scanRest ((L.map some).drop ((n - 1).toNat + 1))
                ((n - 1).toNat + 1) d = some i := h
            rw [← List.map_drop] at h
            obtain ⟨l', hget, hcl, hle⟩ := scanRest_some_close _ _ _ _
              (lineScan_some_ge_one _ _ _ (Nat.le_refl 1) hsc) h
            refine ⟨l', ?_, fun he => by simp [he] at hcl⟩
            have : (L.drop ((n - 1).toNat + 1)).get? (i - ((n - 1).toNat + 1)) =
                L.get? (((n - 1).toNat + 1) + (i - ((n - 1).toNat + 1))) := by
              simp [List.get?_eq_getElem?, List.getElem?_drop]
            rw [this] at hget
            have harith : ((n - 1).toNat + 1) + (i - ((n - 1).toNat + 1)) = i := by
              omega
            rwa [harith] at hget

theorem applyGroup_sim {L P : List Str} (hrel : TailRelP L P)
    (hL : ∀ l ∈ L, containsSub trailingCommentStart l = false)
    (n : Int) (entries : List LogEntry)
    (hres : ∀ e ∈ entries, '(' ∉ e.result ∧ ')' ∉ e.result ∧ '\n' ∉ e.result) :
    applyGroup (P.map some) n entries =
      (match findCallEndLineIndex ⟨n, leftMostColumn entries⟩ (L.map some) with
       | none => P.map some
       | some i => (P.set i (L.getD i [] ++ mkTail entries)).map some) := by
  have hstab := findCallEnd_stable hrel n (leftMostColumn entries)
  have hany : (entries.any fun e => containsSub ['\n'] e.result) = false := by
    rw [List.any_eq_false]
    intro e he
    rw [Bool.not_eq_true]
    cases hcc : containsSub ['\n'] e.result with
    | false => rfl
    | true => exact absurd ((containsSub_char_iff _ _).mp hcc) (hres e he).2.2
  unfold applyGroup
  dsimp only
  split
  · rename_i h'
    rw [hstab.symm.trans h']
  · rename_i index h'
    have hpure : findCallEndLineIndex ⟨n, leftMostColumn entries⟩ (L.map some) =
        some index := hstab.symm.trans h'
    rw [hpure]
    show _ = (P.set index (L.getD index [] ++ mkTail entries)).map some
    obtain ⟨lend, hLi, hlne⟩ := findCallEnd_some_close L n _ index hpure
    obtain ⟨t, hct, htne, hPget⟩ := hrel.get? index lend hLi
    rw [List.get?_map, hPget]
    have hne2 : lend ++ t ≠ [] := by
      intro hh
      exact hlne (by simpa using (List.append_eq_nil.mp hh).1)
    have hmain : takeBeforeSub trailingCommentStart (lend ++ t) = lend := by
      have hclean : containsSub trailingCommentStart lend = false :=
        hL lend (List.get?_mem hLi)
      rcases hct.2.2.2 with rfl | ⟨rs, rfl⟩
      · rw [List.append_nil]
        exact takeBeforeSub_of_not_contains _ _ hclean
      · rw [← List.append_assoc]
        exact takeBeforeSub_append_marker lend rs hclean
    have hgetD : L.getD index [] = lend := by
      rw [List.getD_eq_get?, hLi]
      rfl
    split
    · rename_i x0 line heq
      have hline : line = lend ++ t := by
        injection heq with heq1
        injection heq1 with heq2
        exact heq2.symm
      subst hline
      rw [if_neg hne2]
      rw [hany]
      show (P.map some).set index (some (takeBeforeSub trailingCommentStart (lend ++ t) ++
          trailingCommentStart ++ ' ' :: joinSep [',', ' '] (entries.map (·.result)))) =
        (P.set index (L.getD index [] ++ mkTail entries)).map some
      rw [hmain, hgetD, List.map_set]
      simp only [mkTail, List.append_assoc]
    · rename_i hcontra
      exact absurd rfl (hcontra (lend ++ t))

theorem applyGroup_sim_rel {L P : List Str} (hrel : TailRelP L P)
    (hL : ∀ l ∈ L, containsSub trailingCommentStart l = false)
    (n : Int) (entries : List LogEntry)
    (hres : ∀ e ∈ entries, '(' ∉ e.result ∧ ')' ∉ e.result ∧ '\n' ∉ e.result) :
    ∃ Q, applyGroup (P.map some) n entries = Q.map some ∧ TailRelP L Q := by
  rw [applyGroup_sim hrel hL n entries hres]
  cases hend : findCallEndLineIndex ⟨n, leftMostColumn entries⟩ (L.map some) with
  | none => exact ⟨P, rfl, hrel⟩
  | some i =>
    obtain ⟨lend, hLi, hlne⟩ := findCallEnd_some_close L n _ i hend
    refine ⟨P.set i (L.getD i [] ++ mkTail entries), rfl, ?_⟩
    apply hrel.set i (mkTail entries) (cleanTail_mkTail entries hres)
    intro _
    rw [List.getD_eq_get?, hLi]
    exact hlne

theorem fold_sim_rel (E : List LogEntry) (L : List Str) (ns : List Int)
    {P : List Str} (hrel : TailRelP L P)
    (hL : ∀ l ∈ L, containsSub trailingCommentStart l = false)
    (hres : ∀ e ∈ E, '(' ∉ e.result ∧ ')' ∉ e.result ∧ '\n' ∉ e.result) :
    ∃ Q, ns.foldl (fun ls n => applyGroup ls n (E.filter fun e => e.line == n))
        (P.map some) = Q.map some ∧ TailRelP L Q := by
  induction ns generalizing P with
  | nil => exact ⟨P, rfl, hrel⟩
  | cons n ns' ih =>
    have hresf : ∀ e ∈ E.filter (fun e => e.line == n),
        '(' ∉ e.result ∧ ')' ∉ e.result ∧ '\n' ∉ e.result :=
      fun e he => hres e (List.mem_filter.mp he).1
    obtain ⟨Q1, hQ1, hrel1⟩ := applyGroup_sim_rel hrel hL n _ hresf
    simp only [List.foldl_cons, hQ1]
    exact ih hrel1

theorem fold_untouched (E : List LogEntry) (L : List Str) (ns : List Int)
    {P : List Str} (hrel : TailRelP L P)
    (hL : ∀ l ∈ L, containsSub trailingCommentStart l = false)
    (hres : ∀ e ∈ E, '(' ∉ e.result ∧ ')' ∉ e.result ∧ '\n' ∉ e.result)
    (i : Nat)
    (hi : ∀ n ∈ ns,
      findCallEndLineIndex ⟨n, leftMostColumn (E.filter fun e => e.line == n)⟩
        (L.map some) ≠ some i) :
    (ns.foldl (fun ls n => applyGroup ls n (E.filter fun e => e.line == n))
        (P.map some)).get? i = (P.map some).get? i := by
  induction ns generalizing P with
  | nil => rfl
  | cons n ns' ih =>
    have hresf : ∀ e ∈ E.filter (fun e => e.line == n),
        '(' ∉ e.result ∧ ')' ∉ e.result ∧ '\n' ∉ e.result :=
      fun e he => hres e (List.mem_filter.mp he).1
    simp only [List.foldl_cons]
    rw [applyGroup_sim hrel hL n _ hresf]
    cases hend : findCallEndLineIndex
        ⟨n, leftMostColumn (E.filter fun e => e.line == n)⟩ (L.map some) with
    | none =>
      exact ih hrel fun n' hn' => hi n' (List.mem_cons_of_mem n hn')
    | some j =>
      have hji : j ≠ i := by
        intro hj
        exact hi n (by simp) (hj ▸ hend)
      set v := L.getD j [] ++ mkTail (E.filter fun e => e.line == n) with hv
      have hrel1 : TailRelP L (P.set j v) := by
        obtain ⟨lend, hLj, hlne⟩ := findCallEnd_some_close L n _ j hend
        rw [hv]
        apply hrel.set j _ (cleanTail_mkTail _ hresf)
        intro _
        rw [List.getD_eq_get?, hLj]
        exact hlne
      rw [ih hrel1 (fun n' hn' => hi n' (List.mem_cons_of_mem n hn'))]
      simp only [List.get?_eq_getElem?, List.getElem?_map]
      rw [List.getElem?_set_ne hji]

theorem fold_agree (E : List LogEntry) (L : List Str) (ns : List Int)
    {P P' : List Str} (hrel : TailRelP L P) (hrel' : TailRelP L P')
    (hL : ∀ l ∈ L, containsSub trailingCommentStart l = false)
    (hres : ∀ e ∈ E, '(' ∉ e.result ∧ ')' ∉ e.result ∧ '\n' ∉ e.result)
    (hagree : ∀ i,
      (∀ n ∈ ns,
        findCallEndLineIndex ⟨n, leftMostColumn (E.filter fun e => e.line == n)⟩
          (L.map some) ≠ some i) →
      P.get? i = P'.get? i) :
    ns.foldl (fun ls n => applyGroup ls n (E.filter fun e => e.line == n))
        (P.map some) =
      ns.foldl (fun ls n => applyGroup ls n (E.filter fun e => e.line == n))
        (P'.map some) := by
  induction ns generalizing P P' with
  | nil =>
    simp only [List.foldl_nil]
    congr 1
    apply List.ext_getElem?
    intro j
    have := hagree j (by simp)
    simpa [List.get?_eq_getElem?] using this
  | cons n ns' ih =>
    have hresf : ∀ e ∈ E.filter (fun e => e.line == n),
        '(' ∉ e.result ∧ ')' ∉ e.result ∧ '\n' ∉ e.result :=
      fun e he => hres e (List.mem_filter.mp he).1
    simp only [List.foldl_cons]
    rw [applyGroup_sim hrel hL n _ hresf, applyGroup_sim hrel' hL n _ hresf]
    cases hend : findCallEndLineIndex
        ⟨n, leftMostColumn (E.filter fun e => e.line == n)⟩ (L.map some) with
    | none =>
      exact ih hrel hrel' fun i hunt =>
        hagree i fun n' hn' => by
          rcases List.mem_cons.mp hn' with rfl | hmem
          · rw [hend]; simp
          · exact hunt n' hmem
    | some j =>
      set v := L.getD j [] ++ mkTail (E.filter fun e => e.line == n) with hv
      obtain ⟨lend, hLj, hlne⟩ := findCallEnd_some_close L n _ j hend
      have hrel1 : TailRelP L (P.set j v) := by
        rw [hv]
        apply hrel.set j _ (cleanTail_mkTail _ hresf)
        intro _
        rw [List.getD_eq_get?, hLj]
        exact hlne
      have hrel1' : TailRelP L (P'.set j v) := by
        rw [hv]
        apply hrel'.set j _ (cleanTail_mkTail _ hresf)
        intro _
        rw [List.getD_eq_get?, hLj]
        exact hlne
      apply ih hrel1 hrel1'
      intro i hunt
      by_cases hij : i = j
      · subst hij
        have hlen : P.length = P'.length := by
          rw [hrel.length_eq, hrel'.length_eq]
        simp only [List.get?_eq_getElem?]
        by_cases hlt : i < P.length
        · rw [List.getElem?_set_self (by omega), List.getElem?_set_self (by omega)]
        · have h1 : (P.set i v)[i]? = none := by
            rw [List.getElem?_eq_none_iff, List.length_set]
            omega
          have h2 : (P'.set i v)[i]? = none := by
            rw [List.getElem?_eq_none_iff, List.length_set]
            omega
          rw [h1, h2]
      · have := hagree i fun n' hn' => by
          rcases List.mem_cons.mp hn' with rfl | hmem
          · rw [hend]
            exact fun hc => hij (Option.some.inj hc).symm
          · exact hunt n' hmem
        simp only [List.get?_eq_getElem?] at this ⊢
        rw [List.getElem?_set_ne (by omega), List.getElem?_set_ne (by omega)]
        exact this

/-! ### A specification of the call-end scan in the words of the spec

Claim C6 describes the scan as: find the first `(` at or after the anchor
column on the anchor line; from just past it, track parenthesis depth,
starting at 1, across line boundaries; the call ends on the line where the
depth first returns to 0; the group is discarded at end-of-text.  The
definitions below state that directly (depth after `q` characters is
`1 + balance of the prefix`), independently of the incremental loop of the
source, and are proved equivalent to `findCallEndLineIndex`. -/

def charDelta (c : Char) : Int :=
  if c = '(' then 1 else if c = ')' then -1 else 0

def balance (cs : Str) : Int := (cs.map charDelta).sum

/-- Does the depth, starting at `d`, reach 0 after some prefix of `cs`? -/
def chunkHitsZero (cs : Str) (d : Int) : Bool :=
  (List.range (cs.length + 1)).any fun q => d + balance (cs.take q) == 0

/-- The first chunk index in which the running depth reaches 0. -/
def specScanLines (chunks : List Str) (d : Int) : Option Nat :=
  (List.range chunks.length).find? fun i =>
    chunkHitsZero (chunks.getD i []) (d + ((chunks.take i).map balance).sum)

/-- The first index `q ≥ start` carrying `'('`. -/
def firstParenFrom (line : Str) (start : Nat) : Option Nat :=
  (List.range line.length).find? fun q =>
    decide (start ≤ q) && decide (line.getD q ' ' = '(')

/-- The call-end search as claim C6 words it. -/
def specCallEnd : Position → List Str → Option Nat
  | ⟨n, col⟩, lines =>
    if n < 1 then none
    else
      let idx := (n - 1).toNat
      match lines.get? idx with
      | none => none
      | some line =>
        if line = [] then none
        else
          match firstParenFrom line (clampStart line.length col) with
          | none => none
          | some p0 =>
            (specScanLines (line.drop (p0 + 1) :: lines.drop (idx + 1)) 1).map
              fun j => idx + j

theorem find?_range_none (k : Nat) (p : Nat → Bool) (h : ∀ j, j < k → p j = false) :
    (List.range k).find? p = none := by
  rw [List.find?_eq_none]
  intro x hx
  rw [List.mem_range] at hx
  simp [h x hx]

theorem find?_range_some (k : Nat) (p : Nat → Bool) (m : Nat) :
    m < k → p m = true → (∀ j, j < m → p j = false) →
    (List.range k).find? p = some m := by
  induction k with
  | zero => intro hm _ _; omega
  | succ k ih =>
    intro hm hpm hmin
    rw [List.range_succ, List.find?_append]
    by_cases hmk : m < k
    · rw [ih hmk hpm hmin]
      rfl
    · have hmk' : m = k := by omega
      subst hmk'
      rw [find?_range_none m p hmin]
      simp [List.find?_cons, hpm]

theorem balance_nil : balance [] = 0 := rfl

theorem balance_cons (c : Char) (cs : Str) :
    balance (c :: cs) = charDelta c + balance cs := by
  simp [balance]

theorem chunkHitsZero_zero (cs : Str) : chunkHitsZero cs 0 = true := by
  unfold chunkHitsZero
  rw [List.any_eq_true]
  exact ⟨0, by simp, by simp [balance_nil]⟩

theorem chunkHitsZero_cons (c : Char) (rest : Str) (d : Int) (hd : d ≠ 0) :
    chunkHitsZero (c :: rest) d = chunkHitsZero rest (d + charDelta c) := by
  unfold chunkHitsZero
  rw [show (c :: rest).length = rest.length + 1 from rfl,
    List.range_succ_eq_map, List.any_cons, List.any_map]
  have h0 : (d + balance ((c :: rest).take 0) == 0) = false := by
    simp only [List.take_nil, balance_nil, List.take_zero, add_zero]
    exact beq_eq_false_iff_ne.mpr hd
  rw [h0, Bool.false_or]
  congr 1
  funext q
  show (d + balance ((c :: rest).take (q + 1)) == 0) =
    (d + charDelta c + balance (rest.take q) == 0)
  rw [List.take_succ_cons, balance_cons, ← add_assoc]

theorem specScanLines_nil (d : Int) : specScanLines [] d = none := rfl

theorem specScanLines_cons (c0 : Str) (rest : List Str) (d : Int) :
    specScanLines (c0 :: rest) d =
      if chunkHitsZero c0 d then some 0
      else (specScanLines rest (d + balance c0)).map (· + 1) := by
  unfold specScanLines
  rw [show (c0 :: rest).length = rest.length + 1 from rfl, List.range_succ_eq_map]
  by_cases h0 : chunkHitsZero c0 d
  · rw [if_pos h0, List.find?_cons_of_pos]
    show (chunkHitsZero ((c0 :: rest).getD 0 [])
      (d + (((c0 :: rest).take 0).map balance).sum)) = true
    simpa using h0
  · rw [if_neg h0, List.find?_cons_of_neg, List.find?_map]
    · have hfun : ((fun i => chunkHitsZero ((c0 :: rest).getD i [])
          (d + (((c0 :: rest).take i).map balance).sum)) ∘ Nat.succ) =
          fun i => chunkHitsZero (rest.getD i [])
            ((d + balance c0) + ((rest.take i).map balance).sum) := by
        funext q
        show chunkHitsZero ((c0 :: rest).getD (q + 1) [])
            (d + (((c0 :: rest).take (q + 1)).map balance).sum) = _
        rw [List.take_succ_cons]
        simp only [List.getD_cons_succ, List.map_cons, List.sum_cons, ← add_assoc]
      rw [hfun]
    · show ¬ (chunkHitsZero ((c0 :: rest).getD 0 [])
        (d + (((c0 :: rest).take 0).map balance).sum)) = true
      simpa using h0

theorem natStep_cast (c : Char) (d : Nat) (hd : 1 ≤ d) :
    ((if c = '(' then d + 1 else if c = ')' then d - 1 else d : Nat) : Int) =
      (d : Int) + charDelta c := by
  unfold charDelta
  by_cases h1 : c = '('
  · rw [if_pos h1, if_pos h1]
    push_cast
    ring
  · rw [if_neg h1, if_neg h1]
    by_cases h2 : c = ')'
    · rw [if_pos h2, if_pos h2]
      omega
    · rw [if_neg h2, if_neg h2]
      omega

theorem lineScan_chunk_spec (cs : Str) (d : Nat) (hd : 1 ≤ d) :
    (lineScan cs d = none ↔ chunkHitsZero cs (d : Int) = true) ∧
    (∀ d', lineScan cs d = some d' →
      (d' : Int) = (d : Int) + balance cs ∧ 1 ≤ d' ∧
        chunkHitsZero cs (d : Int) = false) := by
  induction cs generalizing d with
  | nil =>
    constructor
    · simp only [lineScan]
      constructor
      · intro h; cases h
      · intro h
        unfold chunkHitsZero at h
        rw [List.any_eq_true] at h
        obtain ⟨q, _, hq⟩ := h
        rw [beq_iff_eq] at hq
        simp only [List.take_nil, balance_nil, add_zero] at hq
        omega
    · intro d' h
      simp only [lineScan, Option.some.injEq] at h
      subst h
      refine ⟨by simp [balance_nil], hd, ?_⟩
      unfold chunkHitsZero
      rw [List.any_eq_false]
      intro q _
      simp only [List.take_nil, balance_nil, add_zero, beq_iff_eq]
      omega
  | cons c rest ih =>
    have hdz : (d : Int) ≠ 0 := by omega
    have hcast := natStep_cast c d hd
    set d2 := if c = '(' then d + 1 else if c = ')' then d - 1 else d with hd2
    have hcons := chunkHitsZero_cons c rest (d : Int) hdz
    rw [← hcast] at hcons
    by_cases hz : d2 = 0
    · constructor
      · constructor
        · intro _
          rw [hcons, hz]
          exact chunkHitsZero_zero rest
        · intro _
          simp only [lineScan, ← hd2, if_pos hz]
      · intro d' h
        simp only [lineScan, ← hd2, if_pos hz] at h
        cases h
    · have hd2ge : 1 ≤ d2 := by omega
      obtain ⟨hiff, hsome⟩ := ih d2 hd2ge
      constructor
      · rw [show lineScan (c :: rest) d = lineScan rest d2 by
          simp only [lineScan, ← hd2, if_neg hz]]
        rw [hcons]
        exact hiff
      · intro d' h
        rw [show lineScan (c :: rest) d = lineScan rest d2 by
          simp only [lineScan, ← hd2, if_neg hz]] at h
        obtain ⟨hb, hg, hfalse⟩ := hsome d' h
        refine ⟨?_, hg, by rw [hcons]; exact hfalse⟩
        rw [hb, hcast, balance_cons]
        ring

theorem scanRest_eq_spec (chunks : List Str) (i0 : Nat) (d : Nat) (hd : 1 ≤ d) :
    scanRest (chunks.map some) i0 d =
      (specScanLines chunks (d : Int)).map (fun j => i0 + j) := by
  induction chunks generalizing i0 d with
  | nil => rfl
  | cons c0 rest ih =>
    rw [specScanLines_cons]
    simp only [List.map_cons, scanRest, lineScanO]
    obtain ⟨hiff, hsome⟩ := lineScan_chunk_spec c0 d hd
    cases hs : lineScan c0 d with
    | none =>
      rw [if_pos (hiff.mp hs)]
      simp
    | some d' =>
      obtain ⟨hb, hg, hfalse⟩ := hsome d' hs
      rw [if_neg (by rw [hfalse]; exact Bool.false_ne_true)]
      show scanRest (List.map some rest) (i0 + 1) d' =
        Option.map (fun j => i0 + j)
          (Option.map (fun x => x + 1) (specScanLines rest ((d : Int) + balance c0)))
      rw [← hb, ih (i0 + 1) d' hg, Option.map_map]
      congr 1
      funext j
      show i0 + 1 + j = i0 + (j + 1)
      omega

theorem indexOfFrom_char_eq_firstParen (l : Str) (c : Nat) :
    indexOfFrom ['('] l c = firstParenFrom l c := by
  have hchar : ∀ q, q < l.length →
      (['('].isPrefixOf (l.drop q) = true ↔ l.getD q ' ' = '(') := by
    intro q hq
    rw [List.drop_eq_getElem_cons hq]
    simp only [List.isPrefixOf, Bool.and_eq_true, beq_iff_eq, List.getD_eq_getElem?_getD,
      List.getElem?_eq_getElem hq]
    constructor
    · rintro ⟨h1, -⟩
      simp [h1.symm]
    · intro h1
      refine ⟨by simpa using h1.symm, by simp [List.isPrefixOf]⟩
  unfold indexOfFrom firstParenFrom
  cases hf : findSub ['('] (l.drop c) with
  | none =>
    rw [findSub_none_iff] at hf
    rw [find?_range_none]
    · rfl
    · intro q hq
      rw [Bool.and_eq_false_iff]
      by_cases hcq : c ≤ q
      · right
        rw [decide_eq_false_iff_not]
        intro hpq
        have := hf (q - c)
        rw [List.drop_drop] at this
        rw [show c + (q - c) = q by omega] at this
        exact absurd ((hchar q hq).mpr hpq) (by rw [this]; exact Bool.false_ne_true)
      · left
        simpa using hcq
  | some j =>
    obtain ⟨hlen, hpre⟩ := findSub_some_le _ _ _ hf
    have hmin := findSub_some_min _ _ _ hf
    simp only [List.length_drop, List.length_cons, List.length_nil] at hlen
    have hcl : c + j < l.length := by omega
    rw [List.drop_drop] at hpre
    rw [find?_range_some l.length _ (c + j) hcl]
    · simp [Nat.add_comm]
    · rw [Bool.and_eq_true]
      refine ⟨by simp, ?_⟩
      rw [decide_eq_true_iff]
      exact (hchar (c + j) hcl).mp hpre
    · intro q hq
      rw [Bool.and_eq_false_iff]
      by_cases hcq : c ≤ q
      · right
        rw [decide_eq_false_iff_not]
        intro hpq
        have := hmin (q - c) (by omega)
        rw [List.drop_drop, show c + (q - c) = q by omega] at this
        exact absurd ((hchar q (by omega)).mpr hpq)
          (by rw [this]; exact Bool.false_ne_true)
      · left
        simpa using hcq

/-- The code's call-end search agrees with the depth-balance description of
claim C6 on every list of real (unmarked) lines. -/
theorem findCallEnd_eq_spec (n : Int) (col : Option Int) (lines : List Str) :
    findCallEndLineIndex ⟨n, col⟩ (lines.map some) = specCallEnd ⟨n, col⟩ lines := by
  rw [findCallEnd_eq_core]
  show _ =
    (if n < 1 then none
     else
       match lines.get? (n - 1).toNat with
       | none => none
       | some line =>
         if line = [] then none
         else
           match firstParenFrom line (clampStart line.length col) with
           | none => none
           | some p0 =>
             (specScanLines (line.drop (p0 + 1) :: lines.drop ((n - 1).toNat + 1)) 1).map
               fun j => (n - 1).toNat + j)
  by_cases hn : n < 1
  · rw [if_pos hn, if_pos hn]
  · rw [if_neg hn, if_neg hn, List.get?_map]
    cases hL : lines.get? (n - 1).toNat with
    | none => rfl
    | some line =>
      show callEndCore col line (n - 1).toNat
          ((lines.map some).drop ((n - 1).toNat + 1)) =
        (if line = [] then none
         else
           match firstParenFrom line (clampStart line.length col) with
           | none => none
           | some p0 =>
             (specScanLines (line.drop (p0 + 1) :: lines.drop ((n - 1).toNat + 1)) 1).map
               fun j => (n - 1).toNat + j)
      unfold callEndCore
      by_cases hl : line = []
      · rw [if_pos hl]
        rw [if_pos hl]
      · rw [if_neg hl]
        rw [if_neg hl, indexOfFrom_char_eq_firstParen]
        cases hp : firstParenFrom line (clampStart line.length col) with
        | none => rfl
        | some p0 =>
          show (match lineScan (line.drop (p0 + 1)) 1 with
            | none => some (n - 1).toNat
            | some d =>
              scanRest ((lines.map some).drop ((n - 1).toNat + 1))
                ((n - 1).toNat + 1) d) =
            (specScanLines (line.drop (p0 + 1) :: lines.drop ((n - 1).toNat + 1)) 1).map
              fun j => (n - 1).toNat + j
          rw [specScanLines_cons]
          obtain ⟨hiff, hsome⟩ := lineScan_chunk_spec (line.drop (p0 + 1)) 1 (Nat.le_refl 1)
          rw [Nat.cast_one] at hiff
          cases hs : lineScan (line.drop (p0 + 1)) 1 with
          | none =>
            rw [if_pos (hiff.mp hs)]
            simp
          | some d =>
            obtain ⟨hb, hg, hfalse⟩ := hsome d hs
            rw [Nat.cast_one] at hb hfalse
            rw [if_neg (by rw [hfalse]; exact Bool.false_ne_true)]
            show scanRest ((lines.map some).drop ((n - 1).toNat + 1))
                ((n - 1).toNat + 1) d =
              Option.map (fun j => (n - 1).toNat + j)
                (Option.map (fun x => x + 1)
                  (specScanLines (lines.drop ((n - 1).toNat + 1))
                    ((1 : Int) + balance (line.drop (p0 + 1)))))
            rw [← List.map_drop, scanRest_eq_spec _ _ _ hg]
            rw [show ((1 : Int) + balance (line.drop (p0 + 1))) = (d : Int) from hb.symm]
            rw [Option.map_map]
            congr 1
            funext j
            show (n - 1).toNat + 1 + j = (n - 1).toNat + (j + 1)
            omega

/-! ### Decimal rendering and parsing (for the C5 round trip) -/

theorem digitChar_toNat (d : Nat) (hd : d < 10) : (digitChar d).toNat = 48 + d := by
  interval_cases d <;> decide

theorem isDigitChar_digitChar (d : Nat) (hd : d < 10) :
    isDigitChar (digitChar d) = true := by
  interval_cases d <;> decide

theorem digitsVal_append_one (s : Str) (c : Char) :
    digitsVal (s ++ [c]) = digitsVal s * 10 + (c.toNat - 48) := by
  simp [digitsVal, List.foldl_append]

theorem isDigitChar_toNat {c : Char} (h : isDigitChar c = true) :
    48 ≤ c.toNat ∧ c.toNat ≤ 57 := by
  simp only [isDigitChar, Bool.decide_and, Bool.and_eq_true, decide_eq_true_eq] at h
  obtain ⟨h1, h2⟩ := h
  rw [Char.le_def] at h1 h2
  exact ⟨h1, h2⟩

theorem natToStrGo_spec (fuel n : Nat) (h : n < fuel) :
    digitsVal (natToStrGo fuel n) = n ∧ natToStrGo fuel n ≠ [] ∧
      ∀ ch ∈ natToStrGo fuel n, isDigitChar ch = true := by
  induction fuel generalizing n with
  | zero => omega
  | succ fuel ih =>
    simp only [natToStrGo]
    by_cases hn : n < 10
    · rw [if_pos hn]
      refine ⟨?_, by simp, ?_⟩
      · unfold digitsVal
        simp only [List.foldl_cons, List.foldl_nil]
        rw [digitChar_toNat n hn]
        have h0 : '0'.toNat = 48 := rfl
        omega
      · intro ch hch
        rw [List.mem_singleton] at hch
        subst hch
        exact isDigitChar_digitChar n hn
    · rw [if_neg hn]
      obtain ⟨ihv, ihne, ihd⟩ := ih (n / 10) (by omega)
      refine ⟨?_, by simp, ?_⟩
      · rw [digitsVal_append_one, ihv, digitChar_toNat (n % 10) (by omega)]
        have h0 : '0'.toNat = 48 := rfl
        omega
      · intro ch hch
        rw [List.mem_append] at hch
        rcases hch with hch | hch
        · exact ihd ch hch
        · rw [List.mem_singleton] at hch
          subst hch
          exact isDigitChar_digitChar (n % 10) (by omega)

theorem natToStr_spec (n : Nat) :
    digitsVal (natToStr n) = n ∧ natToStr n ≠ [] ∧
      ∀ ch ∈ natToStr n, isDigitChar ch = true :=
  natToStrGo_spec (n + 1) n (Nat.lt_succ_self n)

theorem digit_not_space {c : Char} (h : isDigitChar c = true) : isSpaceJS c = false := by
  obtain ⟨h1, h2⟩ := isDigitChar_toNat h
  simp only [isSpaceJS]
  rw [decide_eq_false_iff_not]
  rintro (rfl | rfl | rfl | rfl | rfl | rfl) <;> exact absurd h1 (by decide)

theorem digit_ne_of_toNat {c : Char} (h : isDigitChar c = true) (d : Char)
    (hd : d.toNat < 48 ∨ 57 < d.toNat) : c ≠ d := by
  obtain ⟨h1, h2⟩ := isDigitChar_toNat h
  intro he
  subst he
  omega

/-- `parseIntJS` on a nonempty all-digit string is its decimal value. -/
theorem parseIntJS_digits (s : Str) (hne : s ≠ [])
    (hd : ∀ ch ∈ s, isDigitChar ch = true) :
    parseIntJS s = some ((digitsVal s : Nat) : Int) := by
  obtain ⟨c, t, rfl⟩ := List.exists_cons_of_ne_nil hne
  have hc : isDigitChar c = true := hd c (List.mem_cons_self c t)
  have hdp : digitPre (c :: t) = some (digitsVal (c :: t)) := by
    unfold digitPre
    have htw : (c :: t).takeWhile isDigitChar = c :: t := by
      rw [List.takeWhile_eq_self_iff]
      exact hd
    rw [htw]
    rw [if_neg (by simp)]
  unfold parseIntJS
  rw [List.dropWhile_cons_of_neg (by rw [digit_not_space hc]; exact Bool.false_ne_true)]
  split
  · rename_i rest heq
    rw [List.cons.injEq] at heq
    exact absurd heq.1 (digit_ne_of_toNat hc '-' (by decide))
  · rename_i rest heq
    rw [List.cons.injEq] at heq
    exact absurd heq.1 (digit_ne_of_toNat hc '+' (by decide))
  · rw [hdp]
    rfl

theorem intToStr_pos (i : Int) (h : 0 < i) :
    intToStr i = natToStr i.toNat ∧ intToStr i ≠ [] ∧
      (∀ ch ∈ intToStr i, isDigitChar ch = true) ∧
      parseIntJS (intToStr i) = some i := by
  obtain ⟨n, rfl⟩ : ∃ n : Nat, i = Int.ofNat n :=
    ⟨i.toNat, (Int.toNat_of_nonneg (by omega)).symm⟩
  obtain ⟨hv, hne, hdig⟩ := natToStr_spec n
  have he : intToStr (Int.ofNat n) = natToStr n := rfl
  refine ⟨by rw [he]; rfl, by rw [he]; exact hne, by rw [he]; exact hdig, ?_⟩
  rw [he, parseIntJS_digits _ hne hdig, hv]
  rfl

/-! ### Percent-encoding round trip (for the C5 round trip) -/

theorem hexDigit_val (m : Nat) (hm : m < 16) : hexVal (hexDigit m) = some m := by
  interval_cases m <;> decide

theorem hexDigit_ne_nl (n : Nat) (h : n < 16) : hexDigit n ≠ '\n' := by
  interval_cases n <;> decide

theorem char_code_lt (c : Char) : c.toNat < 0x110000 := by
  have hval := c.valid
  show c.val.toNat < 0x110000
  rcases hval with h | h
  · omega
  · omega

theorem char_toNat_not_surrogate (c : Char) :
    c.toNat < 0xD800 ∨ 0xE000 ≤ c.toNat := by
  have h := c.valid
  show c.val.toNat < 0xD800 ∨ 0xE000 ≤ c.val.toNat
  rcases h with h | h
  · left; omega
  · right; omega

theorem readByte_pct (b : Nat) (hb : b < 256) (rest : Str) :
    readByte ('%' :: hexDigit (b / 16) :: hexDigit (b % 16) :: rest) = some (b, rest) := by
  simp only [readByte]
  rw [hexDigit_val (b / 16) (by omega), hexDigit_val (b % 16) (by omega)]
  show some (b / 16 * 16 + b % 16, rest) = some (b, rest)
  rw [show b / 16 * 16 + b % 16 = b from by omega]

theorem readCont_pct (b : Nat) (hlo : 0x80 ≤ b) (hhi : b < 0xC0) (rest : Str) :
    readCont ('%' :: hexDigit (b / 16) :: hexDigit (b % 16) :: rest) =
      some (b - 0x80, rest) := by
  unfold readCont
  rw [readByte_pct b (by omega) rest]
  show (if 0x80 ≤ b ∧ b < 0xC0 then some (b - 0x80, rest) else none) = some (b - 0x80, rest)
  rw [if_pos ⟨hlo, hhi⟩]

theorem utf8Bytes_lt (c : Char) : ∀ b ∈ utf8Bytes c, b < 256 := by
  intro b hb
  have h4 := char_code_lt c
  simp only [utf8Bytes] at hb
  split_ifs at hb <;>
    simp only [List.mem_cons, List.not_mem_nil, or_false] at hb <;>
    (rcases hb with rfl | rfl | rfl | rfl <;> omega)

theorem encode_cons (c : Char) (t : Str) :
    encodeURIComponent (c :: t) =
      (if isUnreserved c then [c] else (utf8Bytes c).flatMap pctByte) ++
        encodeURIComponent t := rfl

theorem utf8Bytes_ne_nil (c : Char) : utf8Bytes c ≠ [] := by
  simp only [utf8Bytes]
  split_ifs <;> simp

theorem encode1_ne_nil (c : Char) :
    (if isUnreserved c then [c] else (utf8Bytes c).flatMap pctByte) ≠ [] := by
  by_cases hu : isUnreserved c
  · rw [if_pos hu]; simp
  · rw [if_neg hu]
    obtain ⟨b, bs, hb⟩ := List.exists_cons_of_ne_nil (utf8Bytes_ne_nil c)
    rw [hb]
    simp [pctByte]

theorem utf8Bytes_one (c : Char) (h : c.toNat < 0x80) : utf8Bytes c = [c.toNat] := by
  simp only [utf8Bytes]
  rw [if_pos h]

theorem utf8Bytes_two (c : Char) (h1 : ¬ c.toNat < 0x80) (h2 : c.toNat < 0x800) :
    utf8Bytes c = [0xC0 + c.toNat / 64, 0x80 + c.toNat % 64] := by
  simp only [utf8Bytes]
  rw [if_neg h1, if_pos h2]

theorem utf8Bytes_three (c : Char) (h1 : ¬ c.toNat < 0x80) (h2 : ¬ c.toNat < 0x800)
    (h3 : c.toNat < 0x10000) :
    utf8Bytes c = [0xE0 + c.toNat / 4096, 0x80 + c.toNat / 64 % 64, 0x80 + c.toNat % 64] := by
  simp only [utf8Bytes]
  rw [if_neg h1, if_neg h2, if_pos h3]

theorem utf8Bytes_four (c : Char) (h1 : ¬ c.toNat < 0x80) (h2 : ¬ c.toNat < 0x800)
    (h3 : ¬ c.toNat < 0x10000) :
    utf8Bytes c = [0xF0 + c.toNat / 262144, 0x80 + c.toNat / 4096 % 64,
      0x80 + c.toNat / 64 % 64, 0x80 + c.toNat % 64] := by
  simp only [utf8Bytes]
  rw [if_neg h1, if_neg h2, if_neg h3]

/-- `decodeGo` inverts the percent encoding given enough fuel. -/
theorem decodeGo_encode (fuel : Nat) :
    ∀ s : Str, (encodeURIComponent s).length ≤ fuel →
      decodeGo fuel (encodeURIComponent s) = some s := by
  induction fuel with
  | zero =>
    intro s hs
    cases s with
    | nil => rfl
    | cons c t =>
      exfalso
      rw [encode_cons, List.length_append] at hs
      have hpos : 0 < (if isUnreserved c then [c]
          else (utf8Bytes c).flatMap pctByte).length :=
        List.length_pos.mpr (encode1_ne_nil c)
      omega
  | succ fuel ih =>
    intro s hs
    cases s with
    | nil => rfl
    | cons c t =>
      rw [encode_cons] at hs ⊢
      by_cases hu : isUnreserved c
      · rw [if_pos hu] at hs ⊢
        have hE : (encodeURIComponent t).length ≤ fuel := by
          rw [List.length_append, List.length_singleton] at hs
          omega
        rw [List.singleton_append]
        simp only [decodeGo]
        rw [if_neg (show ¬ c = '%' from fun he => by
          rw [he] at hu; exact absurd hu (by decide))]
        rw [ih t hE]
        rfl
      · rw [if_neg hu] at hs ⊢
        have hv4 := char_code_lt c
        have hvs := char_toNat_not_surrogate c
        by_cases h1 : c.toNat < 0x80
        · rw [utf8Bytes_one c h1] at hs ⊢
          simp only [List.flatMap_cons, List.flatMap_nil, List.append_nil, pctByte,
            List.cons_append, List.nil_append] at hs ⊢
          have hE : (encodeURIComponent t).length ≤ fuel := by
            simp only [List.length_cons] at hs
            omega
          simp only [decodeGo]
          rw [readByte_pct c.toNat (by omega) _]
          dsimp only
          rw [if_true, if_pos h1, ih t hE]
          simp only [Option.map_some', mkChar]
          rw [Char.ofNat_toNat]
        · by_cases h2 : c.toNat < 0x800
          · rw [utf8Bytes_two c h1 h2] at hs ⊢
            simp only [List.flatMap_cons, List.flatMap_nil, List.append_nil, pctByte,
              List.cons_append, List.nil_append] at hs ⊢
            have hE : (encodeURIComponent t).length ≤ fuel := by
              simp only [List.length_cons] at hs
              omega
            simp only [decodeGo]
            rw [readByte_pct (0xC0 + c.toNat / 64) (by omega) _]
            dsimp only
            have hnb : ¬ (0xC0 + c.toNat / 64 < 0xC2) := by omega
            rw [if_true, if_neg (by omega), if_neg hnb, if_pos (by omega)]
            rw [readCont_pct (0x80 + c.toNat % 64) (by omega) (by omega) _]
            dsimp only
            rw [ih t hE]
            simp only [Option.map_some', mkChar]
            rw [show (0xC0 + c.toNat / 64 - 0xC0) * 64 + (0x80 + c.toNat % 64 - 0x80) =
              c.toNat from by omega]
            rw [Char.ofNat_toNat]
          · by_cases h3 : c.toNat < 0x10000
            · rw [utf8Bytes_three c h1 h2 h3] at hs ⊢
              simp only [List.flatMap_cons, List.flatMap_nil, List.append_nil, pctByte,
                List.cons_append, List.nil_append] at hs ⊢
              have hE : (encodeURIComponent t).length ≤ fuel := by
                simp only [List.length_cons] at hs
                omega
              simp only [decodeGo]
              rw [readByte_pct (0xE0 + c.toNat / 4096) (by omega) _]
              dsimp only
              have hnb : ¬ (0xE0 + c.toNat / 4096 < 0xC2) := by omega
              rw [if_true, if_neg (by omega), if_neg hnb, if_neg (by omega),
                if_pos (by omega)]
              rw [readCont_pct (0x80 + c.toNat / 64 % 64) (by omega) (by omega) _]
              dsimp only
              rw [readCont_pct (0x80 + c.toNat % 64) (by omega) (by omega) _]
              dsimp only
              rw [show (0xE0 + c.toNat / 4096 - 0xE0) * 4096 +
                (0x80 + c.toNat / 64 % 64 - 0x80) * 64 + (0x80 + c.toNat % 64 - 0x80) =
                c.toNat from by omega]
              rw [if_neg (by omega), ih t hE]
              simp only [Option.map_some', mkChar]
              rw [Char.ofNat_toNat]
            · rw [utf8Bytes_four c h1 h2 h3] at hs ⊢
              simp only [List.flatMap_cons, List.flatMap_nil, List.append_nil, pctByte,
                List.cons_append, List.nil_append] at hs ⊢
              have hE : (encodeURIComponent t).length ≤ fuel := by
                simp only [List.length_cons] at hs
                omega
              simp only [decodeGo]
              rw [readByte_pct (0xF0 + c.toNat / 262144) (by omega) _]
              dsimp only
              have hnb : ¬ (0xF0 + c.toNat / 262144 < 0xC2) := by omega
              have hnb4 : ¬ (0xF0 + c.toNat / 262144 < 0xF0) := by omega
              rw [if_true, if_neg (by omega), if_neg hnb, if_neg (by omega),
                if_neg hnb4, if_pos (by omega)]
              rw [readCont_pct (0x80 + c.toNat / 4096 % 64) (by omega) (by omega) _]
              dsimp only
              rw [readCont_pct (0x80 + c.toNat / 64 % 64) (by omega) (by omega) _]
              dsimp only
              rw [readCont_pct (0x80 + c.toNat % 64) (by omega) (by omega) _]
              dsimp only
              rw [show (0xF0 + c.toNat / 262144 - 0xF0) * 262144 +
                (0x80 + c.toNat / 4096 % 64 - 0x80) * 4096 +
                (0x80 + c.toNat / 64 % 64 - 0x80) * 64 + (0x80 + c.toNat % 64 - 0x80) =
                c.toNat from by omega]
              rw [if_neg (by omega), ih t hE]
              simp only [Option.map_some', mkChar]
              rw [Char.ofNat_toNat]

/-- `decodeURIComponent` is a left inverse of `encodeURIComponent`. -/
theorem decodeURIComponent_encode (s : Str) :
    decodeURIComponent (encodeURIComponent s) = some s :=
  decodeGo_encode _ s (Nat.le_refl _)

/-- `'\n'` never occurs in an encoded result: the escaping really does keep
the log record on a single line whatever the result text is. -/
theorem encode_no_newline (s : Str) : '\n' ∉ encodeURIComponent s := by
  intro h
  unfold encodeURIComponent at h
  rw [List.mem_flatMap] at h
  obtain ⟨c, hc, hmem⟩ := h
  by_cases hu : isUnreserved c
  · rw [if_pos hu, List.mem_singleton] at hmem
    rw [← hmem] at hu
    exact absurd hu (by decide)
  · rw [if_neg hu, List.mem_flatMap] at hmem
    obtain ⟨b, hb, hnb⟩ := hmem
    have hblt := utf8Bytes_lt c b hb
    simp only [pctByte, List.mem_cons, List.not_mem_nil, or_false] at hnb
    rcases hnb with hnb | hnb | hnb
    · exact absurd hnb (by decide)
    · exact absurd hnb.symm (hexDigit_ne_nl (b / 16) (by omega))
    · exact absurd hnb.symm (hexDigit_ne_nl (b % 16) (by omega))

/-! ### POSIX path algebra (for the C5 round trip) -/

theorem normFold_mem (L : List Str) : ∀ (acc : List Str) (x : Str),
    x ∈ L.foldl (fun acc s =>
      if s = [] ∨ s = ['.'] then acc
      else if s = ['.', '.'] then acc.dropLast
      else acc ++ [s]) acc →
    x ∈ acc ∨ (x ∈ L ∧ x ≠ [] ∧ x ≠ ['.'] ∧ x ≠ ['.', '.']) := by
  induction L with
  | nil =>
    intro acc x h
    exact Or.inl h
  | cons s L ih =>
    intro acc x h
    rw [List.foldl_cons] at h
    rcases ih _ x h with hacc | ⟨hmem, hx⟩
    · by_cases h1 : s = [] ∨ s = ['.']
      · rw [if_pos h1] at hacc
        exact Or.inl hacc
      · rw [if_neg h1] at hacc
        by_cases h2 : s = ['.', '.']
        · rw [if_pos h2] at hacc
          exact Or.inl (List.dropLast_subset _ hacc)
        · rw [if_neg h2, List.mem_append, List.mem_singleton] at hacc
          rcases hacc with hacc | rfl
          · exact Or.inl hacc
          · rw [not_or] at h1
            exact Or.inr ⟨List.mem_cons_self _ _, h1.1, h1.2, h2⟩
    · exact Or.inr ⟨List.mem_cons_of_mem _ hmem, hx⟩

theorem normSegs_mem (L : List Str) (x : Str) (h : x ∈ normSegs L) :
    x ∈ L ∧ x ≠ [] ∧ x ≠ ['.'] ∧ x ≠ ['.', '.'] := by
  unfold normSegs at h
  rcases normFold_mem L [] x h with hx | hx
  · cases hx
  · exact hx

theorem normFold_id (L : List Str)
    (hL : ∀ s ∈ L, s ≠ [] ∧ s ≠ ['.'] ∧ s ≠ ['.', '.']) :
    ∀ acc, L.foldl (fun acc s =>
      if s = [] ∨ s = ['.'] then acc
      else if s = ['.', '.'] then acc.dropLast
      else acc ++ [s]) acc = acc ++ L := by
  induction L with
  | nil =>
    intro acc
    simp
  | cons s L ih =>
    intro acc
    obtain ⟨h1, h2, h3⟩ := hL s (List.mem_cons_self _ _)
    rw [List.foldl_cons, if_neg (by rw [not_or]; exact ⟨h1, h2⟩), if_neg h3]
    rw [ih (fun x hx => hL x (List.mem_cons_of_mem _ hx)) (acc ++ [s])]
    simp

theorem normSegs_id (L : List Str)
    (hL : ∀ s ∈ L, s ≠ [] ∧ s ≠ ['.'] ∧ s ≠ ['.', '.']) :
    normSegs L = L := by
  unfold normSegs
  rw [normFold_id L hL []]
  simp

theorem normFold_dotdot (j : Nat) : ∀ acc : List Str,
    (List.replicate j ['.', '.']).foldl (fun acc s =>
      if s = [] ∨ s = ['.'] then acc
      else if s = ['.', '.'] then acc.dropLast
      else acc ++ [s]) acc = acc.take (acc.length - j) := by
  induction j with
  | zero =>
    intro acc
    simp
  | succ j ih =>
    intro acc
    rw [List.replicate_succ, List.foldl_cons, if_neg (by simp), if_pos rfl]
    rw [ih acc.dropLast, List.dropLast_eq_take, List.length_take, List.take_take]
    congr 1
    omega

theorem normSegs_cons_nil (L : List Str) : normSegs ([] :: L) = normSegs L := by
  unfold normSegs
  rw [List.foldl_cons, if_pos (Or.inl rfl)]

theorem normSegs_append_nil (L : List Str) : normSegs (L ++ [[]]) = normSegs L := by
  unfold normSegs
  rw [List.foldl_append, List.foldl_cons, if_pos (Or.inl rfl), List.foldl_nil]

theorem commonLen_le (a b : List Str) :
    commonLen a b ≤ a.length ∧ commonLen a b ≤ b.length := by
  induction a generalizing b with
  | nil => simp [commonLen]
  | cons x as ih =>
    cases b with
    | nil => simp [commonLen]
    | cons y bs =>
      by_cases h : x = y
      · rw [show commonLen (x :: as) (y :: bs) = commonLen as bs + 1 from by
          simp only [commonLen]; rw [if_pos h]]
        obtain ⟨h1, h2⟩ := ih bs
        constructor <;> simp <;> omega
      · rw [show commonLen (x :: as) (y :: bs) = 0 from by
          simp only [commonLen]; rw [if_neg h]]
        simp

theorem commonLen_take (a b : List Str) :
    a.take (commonLen a b) = b.take (commonLen a b) := by
  induction a generalizing b with
  | nil => simp [commonLen]
  | cons x as ih =>
    cases b with
    | nil => simp [commonLen]
    | cons y bs =>
      by_cases h : x = y
      · rw [show commonLen (x :: as) (y :: bs) = commonLen as bs + 1 from by
          simp only [commonLen]; rw [if_pos h]]
        rw [List.take_succ_cons, List.take_succ_cons, h, ih bs]
      · rw [show commonLen (x :: as) (y :: bs) = 0 from by
          simp only [commonLen]; rw [if_neg h]]
        simp

theorem eq_of_commonLen_full (a b : List Str) (ha : commonLen a b = a.length)
    (hb : commonLen a b = b.length) : a = b := by
  have h := commonLen_take a b
  rw [ha, List.take_length] at h
  rw [h, show a.length = b.length from ha ▸ hb, List.take_length]

theorem isAbsolutePath_cons_of_ne (c : Char) (hc : c ≠ '/') (r : Str) :
    isAbsolutePath (c :: r) = false := by
  unfold isAbsolutePath
  split
  · rename_i heq
    rw [List.cons.injEq] at heq
    exact absurd heq.1 hc
  · rfl

theorem isAbsolutePath_append (lf : Str) (hlf : lf ≠ []) (y : Str) :
    isAbsolutePath (lf ++ y) = isAbsolutePath lf := by
  obtain ⟨c, r, rfl⟩ := List.exists_cons_of_ne_nil hlf
  by_cases hc : c = '/'
  · subst hc
    rfl
  · rw [List.cons_append, isAbsolutePath_cons_of_ne c hc, isAbsolutePath_cons_of_ne c hc]

theorem splitSegs_cons_sep (s : Str) : splitSegs ('/' :: s) = [] :: splitSegs s := by
  unfold splitSegs
  simp only [splitOnChar]
  rw [if_true]

theorem joinSegs_ne_nil (L : List Str) (hne : L ≠ []) (hmem : ∀ x ∈ L, x ≠ []) :
    joinSegs L ≠ [] := by
  obtain ⟨x, xs, rfl⟩ := List.exists_cons_of_ne_nil hne
  have hx := hmem x (List.mem_cons_self _ _)
  cases xs with
  | nil => exact hx
  | cons y ys =>
    rw [joinSegs, joinSep_cons _ _ _ (by simp)]
    simp only [List.append_assoc, ne_eq, List.append_eq_nil]
    intro hcon
    exact hx hcon.1

theorem isAbsolutePath_joinSegs (L : List Str) (x : Str) (xs : List Str)
    (hL : L = x :: xs) (hx : x ≠ []) (hsl : '/' ∉ x) :
    isAbsolutePath (joinSegs L) = false := by
  subst hL
  obtain ⟨c, r, rfl⟩ := List.exists_cons_of_ne_nil hx
  have hc : c ≠ '/' := fun he => hsl (he ▸ List.mem_cons_self _ _)
  cases xs with
  | nil => exact isAbsolutePath_cons_of_ne c hc r
  | cons y ys =>
    rw [joinSegs, joinSep_cons _ _ _ (by simp), List.cons_append, List.cons_append]
    exact isAbsolutePath_cons_of_ne c hc _

/-- Re-normalizing a normalized absolute path changes nothing (at the
segment level). -/
theorem normSegs_resolveAbs (p : Str) :
    normSegs (splitSegs (resolveAbs p)) = normSegs (splitSegs p) := by
  unfold resolveAbs
  rw [splitSegs_cons_sep, normSegs_cons_nil]
  have hclean : ∀ s ∈ normSegs (splitSegs p),
      s ≠ [] ∧ s ≠ ['.'] ∧ s ≠ ['.', '.'] :=
    fun s hs => (normSegs_mem _ s hs).2
  cases hN : normSegs (splitSegs p) with
  | nil =>
    show normSegs (splitSegs (joinSegs [])) = []
    rfl
  | cons n ns =>
    rw [show splitSegs (joinSegs (n :: ns)) = n :: ns from by
      unfold splitSegs joinSegs
      exact split_join '/' (n :: ns) (by simp) (by
        intro l hl
        have := normSegs_mem (splitSegs p) l (hN ▸ hl)
        exact (mem_splitOnChar '/' p l this.1).2)]
    exact normSegs_id (n :: ns) (hN ▸ hclean)

/-- `resolveOne` output is `'/'` followed by its own normalized segments. -/
theorem resolveOne_recon (cwd p : Str) :
    resolveOne cwd p = '/' :: joinSegs (normSegs (splitSegs (resolveOne cwd p))) := by
  unfold resolveOne
  by_cases h : isAbsolutePath p = true
  · rw [if_pos h]
    show resolveAbs p = '/' :: joinSegs (normSegs (splitSegs (resolveAbs p)))
    rw [normSegs_resolveAbs]
    rfl
  · rw [if_neg h]
    show resolveAbs _ = '/' :: joinSegs (normSegs (splitSegs (resolveAbs _)))
    rw [normSegs_resolveAbs]
    rfl

/-- The heart of the C5 path round trip: appending the relative segment list
`[".." * (|fs| - k)] ++ ts.drop k` to any base `X` whose normalized segments
are `fs` resolves back to exactly the target segments `ts`. -/
theorem resolveAbs_rejoin (X : Str) (ts : List Str)
    (hclean : ∀ s ∈ ts, s ≠ [] ∧ s ≠ ['.'] ∧ s ≠ ['.', '.'] ∧ '/' ∉ s)
    (hne : List.replicate ((normSegs (splitSegs X)).length -
        commonLen (normSegs (splitSegs X)) ts) ['.', '.'] ++
      ts.drop (commonLen (normSegs (splitSegs X)) ts) ≠ []) :
    resolveAbs (X ++ '/' :: joinSegs
        (List.replicate ((normSegs (splitSegs X)).length -
          commonLen (normSegs (splitSegs X)) ts) ['.', '.'] ++
          ts.drop (commonLen (normSegs (splitSegs X)) ts))) =
      '/' :: joinSegs ts := by
  have hk1 := (commonLen_le (normSegs (splitSegs X)) ts).1
  have hsegs : splitSegs (joinSegs
      (List.replicate ((normSegs (splitSegs X)).length -
        commonLen (normSegs (splitSegs X)) ts) ['.', '.'] ++
        ts.drop (commonLen (normSegs (splitSegs X)) ts))) =
      List.replicate ((normSegs (splitSegs X)).length -
        commonLen (normSegs (splitSegs X)) ts) ['.', '.'] ++
        ts.drop (commonLen (normSegs (splitSegs X)) ts) := by
    unfold splitSegs joinSegs
    apply split_join '/' _ hne
    intro l hl
    rw [List.mem_append] at hl
    rcases hl with hl | hl
    · rw [List.eq_of_mem_replicate hl]
      decide
    · exact (hclean l (List.drop_subset _ _ hl)).2.2.2
  unfold resolveAbs
  rw [show splitSegs (X ++ '/' :: joinSegs _) =
      splitSegs X ++ splitSegs (joinSegs
        (List.replicate ((normSegs (splitSegs X)).length -
          commonLen (normSegs (splitSegs X)) ts) ['.', '.'] ++
          ts.drop (commonLen (normSegs (splitSegs X)) ts))) from
    splitOnChar_append_sep '/' X _]
  rw [hsegs]
  show '/' :: joinSegs (normSegs _) = _
  congr 1
  unfold normSegs
  rw [List.foldl_append]
  have hfX : (splitSegs X).foldl (fun acc s =>
      if s = [] ∨ s = ['.'] then acc
      else if s = ['.', '.'] then acc.dropLast
      else acc ++ [s]) [] = normSegs (splitSegs X) := rfl
  rw [hfX, List.foldl_append, normFold_dotdot]
  rw [show (normSegs (splitSegs X)).length -
      ((normSegs (splitSegs X)).length - commonLen (normSegs (splitSegs X)) ts) =
      commonLen (normSegs (splitSegs X)) ts from by omega]
  rw [normFold_id (ts.drop (commonLen (normSegs (splitSegs X)) ts))
    (fun s hs => by
      obtain ⟨a, b, c, -⟩ := hclean s (List.drop_subset _ _ hs)
      exact ⟨a, b, c⟩)]
  rw [commonLen_take]
  rw [List.take_append_drop]

/-- `path.resolve(base, path.relative(base, p))` recovers `p` when `p` is
absolute and normalized and the base does not itself resolve to `p`; moreover
the relative path is nonempty, not absolute, and draws its characters from
`p`, `'/'` and `'.'` only. -/
theorem jsResolve_jsRelative (cwd lf p : Str)
    (habs : isAbsolutePath p = true) (hnorm : resolveAbs p = p)
    (hbase : resolveOne cwd lf ≠ p) :
    jsResolve cwd lf (jsRelative cwd lf p) = p ∧
    jsRelative cwd lf p ≠ [] ∧
    isAbsolutePath (jsRelative cwd lf p) = false ∧
    (∀ ch ∈ jsRelative cwd lf p, ch = '/' ∨ ch = '.' ∨ ch ∈ p) := by
  have htp : resolveOne cwd p = p := by
    unfold resolveOne
    rw [if_pos habs, hnorm]
  have hclean : ∀ s ∈ normSegs (splitSegs p),
      s ≠ [] ∧ s ≠ ['.'] ∧ s ≠ ['.', '.'] ∧ '/' ∉ s := by
    intro s hsm
    obtain ⟨hmem, h1, h2, h3⟩ := normSegs_mem _ s hsm
    exact ⟨h1, h2, h3, (mem_splitOnChar '/' p s hmem).2⟩
  have hrel : jsRelative cwd lf p =
      joinSegs (List.replicate
        ((normSegs (splitSegs (resolveOne cwd lf))).length -
          commonLen (normSegs (splitSegs (resolveOne cwd lf)))
            (normSegs (splitSegs p))) ['.', '.'] ++
        (normSegs (splitSegs p)).drop
          (commonLen (normSegs (splitSegs (resolveOne cwd lf)))
            (normSegs (splitSegs p)))) := by
    simp only [jsRelative]
    rw [htp]
  have hne : List.replicate
      ((normSegs (splitSegs (resolveOne cwd lf))).length -
        commonLen (normSegs (splitSegs (resolveOne cwd lf)))
          (normSegs (splitSegs p))) ['.', '.'] ++
      (normSegs (splitSegs p)).drop
        (commonLen (normSegs (splitSegs (resolveOne cwd lf)))
          (normSegs (splitSegs p))) ≠ [] := by
    intro hnil
    rw [List.append_eq_nil] at hnil
    obtain ⟨hrep, hdrop⟩ := hnil
    have hk1 := (commonLen_le (normSegs (splitSegs (resolveOne cwd lf)))
      (normSegs (splitSegs p))).1
    have hk2 := (commonLen_le (normSegs (splitSegs (resolveOne cwd lf)))
      (normSegs (splitSegs p))).2
    have hlr := congrArg List.length hrep
    have hld := congrArg List.length hdrop
    simp only [List.length_replicate, List.length_drop, List.length_nil] at hlr hld
    have heq := eq_of_commonLen_full
      (normSegs (splitSegs (resolveOne cwd lf))) (normSegs (splitSegs p))
      (by omega) (by omega)
    apply hbase
    conv_lhs => rw [resolveOne_recon cwd lf]
    rw [heq]
    exact hnorm
  have hmain : ∀ X : Str,
      normSegs (splitSegs X) = normSegs (splitSegs (resolveOne cwd lf)) →
      resolveAbs (X ++ '/' :: jsRelative cwd lf p) = p := by
    intro X hX
    rw [hrel, ← hX]
    rw [resolveAbs_rejoin X (normSegs (splitSegs p)) hclean (by rw [hX]; exact hne)]
    exact hnorm
  obtain ⟨x, xs, hLcons⟩ := List.exists_cons_of_ne_nil hne
  have hx : x ≠ [] ∧ '/' ∉ x := by
    have hxmem : x ∈ List.replicate
        ((normSegs (splitSegs (resolveOne cwd lf))).length -
          commonLen (normSegs (splitSegs (resolveOne cwd lf)))
            (normSegs (splitSegs p))) ['.', '.'] ++
        (normSegs (splitSegs p)).drop
          (commonLen (normSegs (splitSegs (resolveOne cwd lf)))
            (normSegs (splitSegs p))) := by
      rw [hLcons]
      exact List.mem_cons_self _ _
    rw [List.mem_append] at hxmem
    rcases hxmem with hxm | hxm
    · rw [List.eq_of_mem_replicate hxm]
      exact ⟨by decide, by decide⟩
    · obtain ⟨a, -, -, d⟩ := hclean x (List.drop_subset _ _ hxm)
      exact ⟨a, d⟩
  have hmem_ne : ∀ y ∈ List.replicate
      ((normSegs (splitSegs (resolveOne cwd lf))).length -
        commonLen (normSegs (splitSegs (resolveOne cwd lf)))
          (normSegs (splitSegs p))) ['.', '.'] ++
      (normSegs (splitSegs p)).drop
        (commonLen (normSegs (splitSegs (resolveOne cwd lf)))
          (normSegs (splitSegs p))), y ≠ [] := by
    intro y hy
    rw [List.mem_append] at hy
    rcases hy with hy | hy
    · rw [List.eq_of_mem_replicate hy]
      decide
    · exact (hclean y (List.drop_subset _ _ hy)).1
  have hRne : jsRelative cwd lf p ≠ [] := by
    rw [hrel]
    exact joinSegs_ne_nil _ hne hmem_ne
  have hRabs : isAbsolutePath (jsRelative cwd lf p) = false := by
    rw [hrel]
    exact isAbsolutePath_joinSegs _ x xs hLcons hx.1 hx.2
  have hRchars : ∀ ch ∈ jsRelative cwd lf p, ch = '/' ∨ ch = '.' ∨ ch ∈ p := by
    rw [hrel]
    intro ch hch
    have hch' : ch ∈ joinSep ['/'] (List.replicate
        ((normSegs (splitSegs (resolveOne cwd lf))).length -
          commonLen (normSegs (splitSegs (resolveOne cwd lf)))
            (normSegs (splitSegs p))) ['.', '.'] ++
        (normSegs (splitSegs p)).drop
          (commonLen (normSegs (splitSegs (resolveOne cwd lf)))
            (normSegs (splitSegs p)))) := hch
    rcases mem_joinSep ['/'] _ ch hch' with hsep | ⟨x', hx', hcx⟩
    · left
      simpa using hsep
    · rw [List.mem_append] at hx'
      rcases hx' with hx' | hx'
      · right; left
        rw [List.eq_of_mem_replicate hx'] at hcx
        simpa using hcx
      · right; right
        have hmem' := (normSegs_mem _ x' (List.drop_subset _ _ hx')).1
        obtain ⟨⟨pre, post, hps⟩, -⟩ := mem_splitOnChar '/' p x' hmem'
        rw [hps]
        simp only [List.mem_append]
        exact Or.inl (Or.inr hcx)
  have hres : jsResolve cwd lf (jsRelative cwd lf p) = p := by
    unfold jsResolve
    rw [if_neg (by rw [hRabs]; exact Bool.false_ne_true)]
    by_cases hlf : lf = []
    · rw [if_pos hlf]
      subst hlf
      unfold resolveOne
      rw [if_neg (by rw [hRabs]; exact Bool.false_ne_true)]
      have hX : normSegs (splitSegs cwd) =
          normSegs (splitSegs (resolveOne cwd [])) := by
        unfold resolveOne
        rw [if_neg (by decide), normSegs_resolveAbs]
        unfold splitSegs
        rw [splitOnChar_append_sep '/' cwd [],
          show splitOnChar '/' ([] : Str) = [[]] from rfl]
        rw [show normSegs (splitOnChar '/' cwd ++ [[]]) =
          normSegs (splitOnChar '/' cwd) from normSegs_append_nil _]
      exact hmain cwd hX
    · rw [if_neg hlf]
      unfold resolveOne
      rw [isAbsolutePath_append lf hlf _]
      by_cases hla : isAbsolutePath lf = true
      · rw [if_pos hla]
        have hX : normSegs (splitSegs lf) =
            normSegs (splitSegs (resolveOne cwd lf)) := by
          unfold resolveOne
          rw [if_pos hla, normSegs_resolveAbs]
        exact hmain lf hX
      · rw [if_neg hla]
        have hassoc : cwd ++ '/' :: (lf ++ '/' :: jsRelative cwd lf p) =
            (cwd ++ '/' :: lf) ++ '/' :: jsRelative cwd lf p := by
          rw [List.append_assoc]
          rfl
        rw [hassoc]
        have hX : normSegs (splitSegs (cwd ++ '/' :: lf)) =
            normSegs (splitSegs (resolveOne cwd lf)) := by
          unfold resolveOne
          rw [if_neg hla, normSegs_resolveAbs]
        exact hmain (cwd ++ '/' :: lf) hX
  exact ⟨hres, hRne, hRabs, hRchars⟩

/-! ### Log line structure (for the C5 round trip) -/

theorem getD_mem_of_eq (l : Str) (n : Nat) (h : n < l.length) (d c : Char)
    (he : l.getD n d = c) : c ∈ l := by
  rw [List.getD_eq_getElem l d h] at he
  exact he ▸ List.getElem_mem h

/-- In `A:B:C` with colon-free parts, the colons sit exactly at positions
`|A|` and `|A| + 1 + |B|`. -/
theorem colon_positions (A B C : Str) (hA : ':' ∉ A) (hB : ':' ∉ B) (hC : ':' ∉ C)
    (q : Nat) (hq : (A ++ ':' :: (B ++ ':' :: C)).getD q ' ' = ':') :
    q = A.length ∨ q = A.length + 1 + B.length := by
  by_cases h1 : q < A.length
  · exact absurd (getD_mem_of_eq A q h1 ' ' ':' (by
      rw [← List.getD_append A (':' :: (B ++ ':' :: C)) ' ' q h1]; exact hq)) hA
  · by_cases h2 : q = A.length
    · exact Or.inl h2
    · rw [List.getD_append_right A _ ' ' q (by omega)] at hq
      obtain ⟨m, hm⟩ : ∃ m, q - A.length = m + 1 := ⟨q - A.length - 1, by omega⟩
      rw [hm, List.getD_cons_succ] at hq
      by_cases h3 : m < B.length
      · exact absurd (getD_mem_of_eq B m h3 ' ' ':' (by
          rw [← List.getD_append B (':' :: C) ' ' m h3]; exact hq)) hB
      · by_cases h4 : m = B.length
        · right
          omega
        · rw [List.getD_append_right B _ ' ' m (by omega)] at hq
          obtain ⟨r, hr⟩ : ∃ r, m - B.length = r + 1 := ⟨m - B.length - 1, by omega⟩
          rw [hr, List.getD_cons_succ] at hq
          by_cases h5 : r < C.length
          · exact absurd (getD_mem_of_eq C r h5 ' ' ':' hq) hC
          · rw [List.getD_eq_default C ' ' (by omega)] at hq
            exact absurd hq (by decide)

/-- The delimiter `" :: "` occurs nowhere inside `A:B:C` when the parts are
colon-free and `B` is nonempty: the location's two colons are not adjacent. -/
theorem no_delimiter_in_location (A B C : Str) (hA : ':' ∉ A) (hB : ':' ∉ B)
    (hC : ':' ∉ C) (hBne : B ≠ []) :
    containsSub delimiter (A ++ ':' :: (B ++ ':' :: C)) = false := by
  by_contra hcon
  rw [Bool.not_eq_false, containsSub_exists] at hcon
  obtain ⟨pre, post, hs⟩ := hcon
  have hq1 : (A ++ ':' :: (B ++ ':' :: C)).getD (pre.length + 1) ' ' = ':' := by
    rw [hs, List.append_assoc,
      List.getD_append_right pre (delimiter ++ post) ' ' (pre.length + 1) (by omega),
      show pre.length + 1 - pre.length = 1 from by omega]
    rfl
  have hq2 : (A ++ ':' :: (B ++ ':' :: C)).getD (pre.length + 2) ' ' = ':' := by
    rw [hs, List.append_assoc,
      List.getD_append_right pre (delimiter ++ post) ' ' (pre.length + 2) (by omega),
      show pre.length + 2 - pre.length = 2 from by omega]
    rfl
  rcases colon_positions A B C hA hB hC _ hq1 with e1 | e1 <;>
    rcases colon_positions A B C hA hB hC _ hq2 with e2 | e2
  · omega
  · have hB0 : B.length = 0 := by omega
    exact hBne (List.eq_nil_of_length_eq_zero hB0)
  · omega
  · omega

/-- The first delimiter occurrence in an encoded log record sits exactly at
the end of the location part. -/
theorem findSub_delimiter_log (location enc : Str) (hloc : location ≠ [])
    (hnodelim : containsSub delimiter location = false)
    (hlast : isDigitChar (location.getD (location.length - 1) ' ') = true) :
    findSub delimiter (location ++ delimiter ++ enc) = some location.length := by
  apply findSub_append_self_lastchar delimiter location enc (by decide) hloc hnodelim
  intro m hm
  have hm4 : m < 4 := hm
  clear hm
  interval_cases m <;> (intro he; rw [← he] at hlast; exact absurd hlast (by decide))

theorem splitOnChar_three (A B C : Str) (hA : ':' ∉ A) (hB : ':' ∉ B) (hC : ':' ∉ C) :
    splitOnChar ':' (A ++ ':' :: (B ++ ':' :: C)) = [A, B, C] := by
  rw [splitOnChar_append_sep, splitOnChar_append_sep, splitOnChar_single _ _ hA,
    splitOnChar_single _ _ hB, splitOnChar_single _ _ hC]
  rfl

theorem location_last_digit (A B C : Str) (hCne : C ≠ [])
    (hCd : ∀ ch ∈ C, isDigitChar ch = true) :
    isDigitChar ((A ++ ':' :: (B ++ ':' :: C)).getD
      ((A ++ ':' :: (B ++ ':' :: C)).length - 1) ' ') = true := by
  have hlen : (A ++ ':' :: (B ++ ':' :: C)).length =
      A.length + 1 + (B.length + 1 + C.length) := by
    simp only [List.length_append, List.length_cons]
    omega
  have hClen : 0 < C.length := List.length_pos.mpr hCne
  rw [List.getD_append_right A _ ' ' _ (by omega)]
  rw [show (A ++ ':' :: (B ++ ':' :: C)).length - 1 - A.length =
    (B.length + C.length) + 1 from by omega]
  rw [List.getD_cons_succ]
  rw [List.getD_append_right B _ ' ' _ (by omega)]
  rw [show B.length + C.length - B.length = (C.length - 1) + 1 from by omega]
  rw [List.getD_cons_succ]
  exact hCd _ (getD_mem_of_eq C (C.length - 1) (by omega) ' ' _ rfl)

/-- Parsing a well-formed `path:line:column` location string. -/
theorem parseFileLocation_round (A : Str) (hAne : A ≠ []) (hAc : ':' ∉ A)
    (hAq : '?' ∉ A) (line c : Int) (hline : 0 < line) (hc : 0 < c) :
    parseFileLocationFromString (A ++ ':' :: (intToStr line ++ ':' :: intToStr c)) =
      some ⟨A, line, some c⟩ := by
  obtain ⟨-, hl_ne, hl_dig, hl_parse⟩ := intToStr_pos line hline
  obtain ⟨-, hc_ne, hc_dig, hc_parse⟩ := intToStr_pos c hc
  have hBcol : ':' ∉ intToStr line := fun hm => absurd (hl_dig ':' hm) (by decide)
  have hCcol : ':' ∉ intToStr c := fun hm => absurd (hc_dig ':' hm) (by decide)
  unfold parseFileLocationFromString
  rw [splitOnChar_three A _ _ hAc hBcol hCcol]
  dsimp only
  rw [if_neg (by rw [not_or]; exact ⟨hAne, hl_ne⟩)]
  simp only [List.headD_cons, List.get?_cons_succ, List.get?_cons_zero, Option.getD_some]
  rw [splitOnChar_single '?' A hAq]
  simp only [List.headD_cons]
  rw [hl_parse]
  obtain ⟨ch, t, hct⟩ := List.exists_cons_of_ne_nil hc_ne
  rw [hct]
  dsimp only
  rw [← hct, hc_parse]

/-- `parseLogEntry` on a record whose first delimiter occurrence closes the
location part. -/
theorem parseLogEntry_structured (cwd lf location enc : Str)
    (hfind : findSub delimiter (location ++ delimiter ++ enc) = some location.length) :
    parseLogEntry cwd lf (location ++ delimiter ++ enc) =
      (match decodeURIComponent enc with
      | none => .error ()
      | some result =>
        match parseFileLocationFromString location with
        | none => .ok none
        | some loc =>
          .ok (some { filePath := jsResolve cwd lf loc.path,
                      line := loc.line, column := loc.column, result := result })) := by
  unfold parseLogEntry
  rw [hfind]
  dsimp only
  rw [show (location ++ delimiter ++ enc).take location.length = location from by
    rw [List.append_assoc]; exact List.take_left _ _]
  rw [show (location ++ delimiter ++ enc).drop (location.length + delimiter.length) =
      enc from by
    rw [show location.length + delimiter.length = (location ++ delimiter).length from
      (List.length_append _ _).symm]
    exact List.drop_left _ _]

/-! ### Claims -/

/-- C10: applying an empty entry set is the identity on the text, byte for
byte: `applyLogEntriesToFileContent content [] = content`. -/
theorem claim10_apply_empty_identity (content : Str) :
    applyLogEntriesToFileContent content [] = content := by
  unfold applyLogEntriesToFileContent
  simp only [sortedLines, List.foldl_nil, List.foldr_nil]
  rw [filterMap_id_map_some, joinLines_splitLines]

/-- C9 counterexample: `strip` is not idempotent.  Removing the block comment
of `"x //*=> junk*/\n/=> y"` glues `"x /"` to `"/=> y"`, creating a new
trailing marker that only a second strip removes. -/
theorem claim9_counterexample :
    stripLogEntriesFromFileContent
        (stripLogEntriesFromFileContent "x //*=> junk*/\n/=> y".data) ≠
      stripLogEntriesFromFileContent "x //*=> junk*/\n/=> y".data := by
  decide

/-- C9 (amended): `strip` is the identity on text containing neither marker,
and is idempotent on every text whose single strip output is marker-free (the
unconditional idempotence claimed fails, see `claim9_counterexample`). -/
theorem claim9_strip_identity_amended (T : Str) :
    (containsSub trailingCommentStart T = false →
     containsSub multiLineCommentStart T = false →
     stripLogEntriesFromFileContent T = T) ∧
    (containsSub trailingCommentStart (stripLogEntriesFromFileContent T) = false →
     containsSub multiLineCommentStart (stripLogEntriesFromFileContent T) = false →
     stripLogEntriesFromFileContent (stripLogEntriesFromFileContent T) =
       stripLogEntriesFromFileContent T) :=
  ⟨fun h1 h2 => strip_id_of_clean T h1 h2, fun h1 h2 => strip_id_of_clean _ h1 h2⟩

/-- Witness for `claim9_strip_identity_amended` at a concrete marker-free text. -/
theorem claim9_witness :
    stripLogEntriesFromFileContent "p(1)\nq(2)".data = "p(1)\nq(2)".data :=
  (claim9_strip_identity_amended _).1 (by decide) (by decide)

/-- C2 (code bug): the round trip `strip (apply (strip T) E) = strip T` fails
for a multi-line block annotation on an indented line: stripping removes the
block from its own marker onwards, leaving the block's first-line indentation
behind, fused with the following line (`"  p(1)\nz"` comes back as
`"  p(1)\n  z"`). -/
theorem claim2_roundtrip_failure :
    stripLogEntriesFromFileContent "  p(1)\nz".data = "  p(1)\nz".data ∧
    applyLogEntriesToFileContent "  p(1)\nz".data
        [⟨"f".data, 1, some 3, "a\nb".data⟩] =
      "  p(1)\n  /*=> a\n       b\n  */\nz".data ∧
    stripLogEntriesFromFileContent
        (applyLogEntriesToFileContent "  p(1)\nz".data
          [⟨"f".data, 1, some 3, "a\nb".data⟩]) =
      "  p(1)\n  z".data ∧
    ("  p(1)\n  z".data : Str) ≠ "  p(1)\nz".data :=
  ⟨rfl, by decide, rfl, by decide⟩

/-- C3 (code bug): the column is not optional in the implementation.  A log
line whose location is a valid path and finite line but has no column segment
is rejected (`decode` returns `none`), because the guard
`typeof column === 'number' && isFinite(column)` also fails for the
deliberately-produced `undefined`.  With a column the same location parses. -/
theorem claim3_column_not_optional :
    parseFileLocationFromString "x.js:12".data = none ∧
    parseLogEntry "/".data "/log".data "x.js:12 :: abc".data = .ok none ∧
    parseFileLocationFromString "x.js:12:5".data =
      some ⟨"x.js".data, 12, some 5⟩ :=
  ⟨by rfl, by rfl, by rfl⟩

/-- C1 counterexample: `apply (apply (strip T) E) E ≠ apply (strip T) E`.
The first apply inserts a three-line block for the entry on line 1, shifting
the text down; on re-application the stale entry for line 5 now lands on the
real line `q(2)` and annotates it, so the second output differs. -/
theorem claim1_counterexample :
    applyLogEntriesToFileContent
        (applyLogEntriesToFileContent
          (stripLogEntriesFromFileContent "p(1)\nq(2)\nr(3)".data)
          [⟨"f".data, 1, some 1, "a\nb".data⟩, ⟨"f".data, 5, some 1, "c".data⟩])
        [⟨"f".data, 1, some 1, "a\nb".data⟩, ⟨"f".data, 5, some 1, "c".data⟩] ≠
      applyLogEntriesToFileContent
        (stripLogEntriesFromFileContent "p(1)\nq(2)\nr(3)".data)
        [⟨"f".data, 1, some 1, "a\nb".data⟩, ⟨"f".data, 5, some 1, "c".data⟩] := by
  decide

theorem listMinInt_none_iff (l : List Int) : listMinInt l = none ↔ l = [] := by
  cases l <;> simp [listMinInt]

theorem listMinInt_some_spec (l : List Int) (m : Int) (h : listMinInt l = some m) :
    m ∈ l ∧ ∀ x ∈ l, m ≤ x := by
  induction l generalizing m with
  | nil => simp [listMinInt] at h
  | cons x xs ih =>
    simp only [listMinInt, Option.some.injEq] at h
    cases hxs : listMinInt xs with
    | none =>
      have h2 : x = m := by rw [hxs] at h; exact h
      rw [listMinInt_none_iff] at hxs
      subst hxs
      simp [← h2]
    | some m' =>
      have h2 : min x m' = m := by rw [hxs] at h; exact h
      obtain ⟨hmem, hlb⟩ := ih m' hxs
      constructor
      · rcases le_total x m' with hle | hle
        · simp [← h2, min_eq_left hle]
        · right
          rw [← h2, min_eq_right hle]
          exact hmem
      · intro y hy
        rcases List.mem_cons.mp hy with rfl | hy'
        · rw [← h2]; exact min_le_left _ _
        · rw [← h2]
          exact le_trans (min_le_right _ _) (hlb y hy')

theorem jsColValue_eq_none_iff (c : Option Int) :
    jsColValue c = none ↔ c = none ∨ c = some 0 := by
  cases c with
  | none => simp [jsColValue]
  | some v =>
    simp only [jsColValue]
    by_cases hv : v = 0 <;> simp [hv]

theorem jsColValue_eq_some_iff (c : Option Int) (m : Int) :
    jsColValue c = some m ↔ c = some m ∧ m ≠ 0 := by
  cases c with
  | none => simp [jsColValue]
  | some v =>
    simp only [jsColValue]
    by_cases hv : v = 0 <;> simp [hv] <;> rintro rfl <;> simp_all

theorem findCallEnd_none_col (n : Int) (lines : List (Option Str)) :
    findCallEndLineIndex ⟨n, none⟩ lines = none := by
  show (if n < 1 then none
    else match lines.get? (n - 1).toNat with
      | some (some line) =>
        if line = [] then none
        else
          match indexOfFrom ['('] line (clampStart line.length none) with
          | none => none
          | some parenStartIndex =>
            match lineScan (line.drop (parenStartIndex + 1)) 1 with
            | none => some (n - 1).toNat
            | some d => scanRest (lines.drop ((n - 1).toNat + 1)) ((n - 1).toNat + 1) d
      | _ => none) = none
  split
  · rfl
  · split
    · rename_i x0 line heq
      by_cases hl : line = []
      · simp [hl]
      · rw [if_neg hl]
        have hidx : indexOfFrom ['('] line (clampStart line.length none) = none := by
          simp [indexOfFrom, clampStart, List.drop_length, findSub]
        rw [hidx]
    · rfl

theorem applyGroup_of_no_end (lines : List (Option Str)) (n : Int)
    (entries : List LogEntry)
    (h : findCallEndLineIndex ⟨n, leftMostColumn entries⟩ lines = none) :
    applyGroup lines n entries = lines := by
  simp only [applyGroup, h]

/-- The anchor column exactly as claim C4 words it: the leftmost column among
the group's entries with known columns (unknown excluded), and 1 when no
entry has a known column.  (Spec-side definition, for comparison with
`leftMostColumn`.) -/
def claimAnchorColumn (entries : List LogEntry) : Int :=
  match listMinInt (entries.filterMap fun e => e.column) with
  | some m => m
  | none => 1

/-- C4 counterexample: the code's anchor is not the claimed one.  A known
column `0` is treated as unknown (`e.column || Infinity`), and a group with no
known column gets anchor `Infinity` — not `1` — so `apply` discards it, while
a search from the claimed anchor (0 resp. 1) would find the call of
`"p(1)"`. -/
theorem claim4_counterexample :
    leftMostColumn [⟨"f".data, 1, some 0, "9".data⟩] = none ∧
    claimAnchorColumn [⟨"f".data, 1, some 0, "9".data⟩] = 0 ∧
    applyLogEntriesToFileContent "p(1)".data [⟨"f".data, 1, some 0, "9".data⟩] =
      "p(1)".data ∧
    findCallEndLineIndex ⟨1, some 0⟩ ((splitLines "p(1)".data).map some) = some 0 ∧
    leftMostColumn [⟨"f".data, 1, none, "9".data⟩] = none ∧
    claimAnchorColumn [⟨"f".data, 1, none, "9".data⟩] = 1 ∧
    findCallEndLineIndex ⟨1, some 1⟩ ((splitLines "p(1)".data).map some) = some 0 ∧
    applyLogEntriesToFileContent "p(1)".data [⟨"f".data, 1, none, "9".data⟩] =
      "p(1)".data := by
  refine ⟨rfl, by decide, by decide, rfl, ?_, ?_, rfl, by decide⟩
  · decide
  · decide

/-- C4 (amended): the anchor is `max 1 m` where `m` is the least *non-zero*
known column of the group (a column of `0` counts as unknown, and a known
column below 1 is clamped); when no entry has a non-zero known column the
anchor is `Infinity` (`none`) and the group is always discarded, leaving the
lines unchanged — it is not anchored at column 1. -/
theorem claim4_anchor_amended (lines : List (Option Str)) (n : Int)
    (entries : List LogEntry) :
    (leftMostColumn entries = none ↔
      ∀ e ∈ entries, e.column = none ∨ e.column = some 0) ∧
    (∀ a, leftMostColumn entries = some a →
      ∃ m, a = max 1 m ∧ (∃ e ∈ entries, e.column = some m ∧ m ≠ 0) ∧
        ∀ e ∈ entries, ∀ c, e.column = some c → c ≠ 0 → m ≤ c) ∧
    (leftMostColumn entries = none → applyGroup lines n entries = lines) := by
  refine ⟨?_, ?_, ?_⟩
  · unfold leftMostColumn
    rw [Option.map_eq_none', listMinInt_none_iff, List.filterMap_eq_nil]
    constructor
    · intro h e he
      exact (jsColValue_eq_none_iff e.column).mp (h e he)
    · intro h e he
      exact (jsColValue_eq_none_iff e.column).mpr (h e he)
  · intro a ha
    unfold leftMostColumn at ha
    cases hmin : listMinInt (entries.filterMap fun e => jsColValue e.column) with
    | none => rw [hmin] at ha; cases ha
    | some m =>
      rw [hmin] at ha
      simp only [Option.map_some', Option.some.injEq] at ha
      obtain ⟨hmem, hlb⟩ := listMinInt_some_spec _ _ hmin
      refine ⟨m, ha.symm, ?_, ?_⟩
      · obtain ⟨e, he, hje⟩ := List.mem_filterMap.mp hmem
        exact ⟨e, he, (jsColValue_eq_some_iff _ _).mp hje⟩
      · intro e he c hc hc0
        exact hlb c (List.mem_filterMap.mpr
          ⟨e, he, (jsColValue_eq_some_iff _ _).mpr ⟨hc, hc0⟩⟩)
  · intro h
    apply applyGroup_of_no_end
    rw [h]
    exact findCallEnd_none_col n lines

/-- Witness for `claim4_anchor_amended`: a group whose only entry has column 0
is discarded no matter the text. -/
theorem claim4_witness :
    applyGroup [some "p(1)".data] 1 [⟨"f".data, 1, some 0, "9".data⟩] =
      [some "p(1)".data] :=
  (claim4_anchor_amended [some "p(1)".data] 1 [⟨"f".data, 1, some 0, "9".data⟩]).2.2
    (by decide)

/-- C7: when no result in a group contains a line break, `apply` renders the
group as one trailing comment, joining the results with `", "` after the
original line (trailing annotations already present are cut off first); and
the claim's concrete example rewrites exactly as stated. -/
theorem claim7_trailing_comment_form :
    (∀ (lines : List (Option Str)) (n : Int) (entries : List LogEntry)
        (index : Nat) (line : Str),
      (∀ e ∈ entries, containsSub ['\n'] e.result = false) →
      findCallEndLineIndex ⟨n, leftMostColumn entries⟩ lines = some index →
      lines.get? index = some (some line) →
      line ≠ [] →
      applyGroup lines n entries =
        lines.set index (some (takeBeforeSub trailingCommentStart line ++
          trailingCommentStart ++ ' ' ::
            joinSep [',', ' '] (entries.map (·.result))))) ∧
    applyLogEntriesToFileContent "p(['Hello','world'].join(', '))".data
        [⟨"f".data, 1, some 1, "\"Hello, world\"".data⟩] =
      "p(['Hello','world'].join(', ')) //=> \"Hello, world\"".data := by
  constructor
  · intro lines n entries index line hres hend hget hline
    have hany : (entries.any fun e => containsSub ['\n'] e.result) = false := by
      rw [List.any_eq_false]
      intro e he
      simp [hres e he]
    simp only [applyGroup, hend, hget, if_neg hline, hany, Bool.false_eq_true,
      if_false]
  · decide

/-- Witness for `claim7_trailing_comment_form` at a concrete group. -/
theorem claim7_witness :
    applyGroup [some "p(1)".data] 1 [⟨"f".data, 1, some 1, "9".data⟩] =
      [some "p(1) //=> 9".data] := by
  have h := claim7_trailing_comment_form.1 [some "p(1)".data] 1
    [⟨"f".data, 1, some 1, "9".data⟩] 0 "p(1)".data (by decide) rfl
    rfl (by decide)
  rw [h]
  decide

theorem get?_drop_one (l : List Str) : (l.drop 1).get? 1 = l.get? 2 := by
  simp [List.get?_eq_getElem?, List.getElem?_drop]

theorem headD_mem_splitOnChar (sep : Char) (s : Str) :
    (splitOnChar sep s).headD [] ∈ splitOnChar sep s := by
  cases hs : splitOnChar sep s with
  | nil => exact absurd hs (splitOnChar_ne_nil sep s)
  | cons x xs => simp

theorem parseFileLocation_no_query (location : Str) (loc : FileLocation)
    (h : parseFileLocationFromString location = some loc) :
    containsSub ['?'] loc.path = false := by
  unfold parseFileLocationFromString at h
  dsimp only at h
  split at h
  · cases h
  · split at h
    · cases h
    · rename_i line hline
      split at h
      · cases h
      · rename_i c hc
        simp only [Option.some.injEq] at h
        subst h
        simp only
        cases hcq : containsSub ['?']
            ((splitOnChar '?' ((splitOnChar ':' location).headD [])).headD []) with
        | false => rfl
        | true =>
          exfalso
          have hmem := headD_mem_splitOnChar '?' ((splitOnChar ':' location).headD [])
          obtain ⟨_, hno⟩ := mem_splitOnChar '?' _ _ hmem
          exact hno ((containsSub_char_iff _ _).mp hcq)

/-- C8: `deriveFromStack` reads the second frame of the stack text (line index
2: index 0 is the error header, index 1 the probe's own frame), strips any
`'?'` query suffix while parsing the location, copies the serialized value,
and returns `none` — a silent per-entry drop of a total function, never an
exception — when the caller line is missing, blank, or unparseable. -/
theorem claim8_derive_from_stack (stack value : Str) :
    ((splitLines stack).get? 2 = none →
      parseLogEntryFromStackTrace stack value = none) ∧
    (∀ callerLine, (splitLines stack).get? 2 = some callerLine →
      (jsTrim callerLine = [] → parseLogEntryFromStackTrace stack value = none) ∧
      (findLocationInStackTraceLine (jsTrim callerLine) = none →
        parseLogEntryFromStackTrace stack value = none) ∧
      (∀ location,
        findLocationInStackTraceLine (jsTrim callerLine) = some location →
        (parseFileLocationFromString location = none →
          parseLogEntryFromStackTrace stack value = none) ∧
        (∀ loc, parseFileLocationFromString location = some loc →
          parseLogEntryFromStackTrace stack value =
            some ⟨loc.path, loc.line, loc.column, value⟩ ∧
          containsSub ['?'] loc.path = false))) := by
  have hidx : ((splitLines stack).drop 1).get? 1 = (splitLines stack).get? 2 :=
    get?_drop_one _
  constructor
  · intro h
    unfold parseLogEntryFromStackTrace
    dsimp only
    rw [hidx, h]
  · intro callerLine hcl
    refine ⟨?_, ?_, ?_⟩
    · intro hblank
      unfold parseLogEntryFromStackTrace
      dsimp only
      rw [hidx, hcl]
      simp [hblank]
    · intro hnoloc
      unfold parseLogEntryFromStackTrace
      dsimp only
      rw [hidx, hcl]
      by_cases hblank : jsTrim callerLine = []
      · simp [hblank]
      · simp only [if_neg hblank]
        show (match findLocationInStackTraceLine (jsTrim callerLine) with
          | none => (none : Option LogEntry)
          | some location =>
            match parseFileLocationFromString location with
            | none => none
            | some l => some ⟨l.path, l.line, l.column, value⟩) = none
        rw [hnoloc]
    · intro location hloc
      constructor
      · intro hnoparse
        unfold parseLogEntryFromStackTrace
        dsimp only
        rw [hidx, hcl]
        dsimp only
        by_cases hblank : jsTrim callerLine = []
        · simp [hblank]
        · simp only [hloc, if_neg hblank]
          show (match parseFileLocationFromString location with
            | none => (none : Option LogEntry)
            | some l => some ⟨l.path, l.line, l.column, value⟩) = none
          rw [hnoparse]
      · intro loc hparse
        refine ⟨?_, parseFileLocation_no_query location loc hparse⟩
        unfold parseLogEntryFromStackTrace
        dsimp only
        rw [hidx, hcl]
        dsimp only
        have hblank : ¬jsTrim callerLine = [] := by
          intro hb
          rw [hb] at hloc
          simp [findLocationInStackTraceLine, anonymousCallerFilePre, fileUriPre,
            atPre, List.isPrefixOf] at hloc
        simp only [hloc, if_neg hblank]
        show (match parseFileLocationFromString location with
          | none => (none : Option LogEntry)
          | some l => some ⟨l.path, l.line, l.column, value⟩) =
          some ⟨loc.path, loc.line, loc.column, value⟩
        rw [hparse]

/-- Witness for `claim8_derive_from_stack` at a concrete V8-style stack. -/
theorem claim8_witness :
    parseLogEntryFromStackTrace
        "Error\n    at p (file:///s/tap.js:10:5)\n    at file:///m/mod.js:3:7?cb=1".data
        "VAL".data =
      some ⟨"/m/mod.js".data, 3, some 7, "VAL".data⟩ :=
  ((claim8_derive_from_stack
      "Error\n    at p (file:///s/tap.js:10:5)\n    at file:///m/mod.js:3:7?cb=1".data
      "VAL".data).2 _ (by rfl)).2.2 _ (by rfl) |>.2 _ (by rfl) |>.1

/-- C1 (amended): idempotence `apply (apply (strip T) E) E = apply (strip T) E`
holds for every `T` and every entry set `E` in which no result contains a line
break or a parenthesis character, provided `strip T` contains no trailing
marker.  (Unrestricted idempotence is false, see `claim1_counterexample`:
multi-line results insert block lines that shift the coordinates the entries
refer to.) -/
theorem claim1_idempotent_amended (T : Str) (E : List LogEntry)
    (hres : ∀ e ∈ E, '(' ∉ e.result ∧ ')' ∉ e.result ∧ '\n' ∉ e.result)
    (hS : containsSub trailingCommentStart (stripLogEntriesFromFileContent T) = false) :
    applyLogEntriesToFileContent
        (applyLogEntriesToFileContent (stripLogEntriesFromFileContent T) E) E =
      applyLogEntriesToFileContent (stripLogEntriesFromFileContent T) E := by
  set S := stripLogEntriesFromFileContent T with hSdef
  set L := splitLines S with hLdef
  set ns := sortedLines E with hnsdef
  have hL : ∀ l ∈ L, containsSub trailingCommentStart l = false := by
    intro l hl
    obtain ⟨⟨pre, post, hTT⟩, _⟩ := mem_splitOnChar '\n' S l hl
    exact containsSub_false_mono _ _ pre post (hTT ▸ hS)
  have hLn : ∀ l ∈ L, '\n' ∉ l := fun l hl => (mem_splitOnChar '\n' S l hl).2
  obtain ⟨Q, hQ, hrelQ⟩ := fold_sim_rel E L ns (TailRelP.refl L) hL hres
  have h1 : applyLogEntriesToFileContent S E = joinLines Q := by
    unfold applyLogEntriesToFileContent
    dsimp only
    rw [← hLdef, ← hnsdef, hQ, filterMap_id_map_some]
  have hQn : ∀ x ∈ Q, '\n' ∉ x := hrelQ.no_newline hLn
  have hQne : Q ≠ [] := by
    intro hQnil
    have h0 := hrelQ.length_eq
    rw [hQnil] at h0
    cases hLc : L with
    | nil =>
      exact splitOnChar_ne_nil '\n' S (show splitOnChar '\n' S = [] from
        hLdef.symm.trans hLc)
    | cons a as => rw [hLc] at h0; simp at h0
  have hsplitQ : splitLines (joinLines Q) = Q := split_join '\n' Q hQne hQn
  have h2 : applyLogEntriesToFileContent (joinLines Q) E = joinLines Q := by
    unfold applyLogEntriesToFileContent
    dsimp only
    rw [hsplitQ, ← hnsdef]
    have hagree : ∀ i,
        (∀ n ∈ ns,
          findCallEndLineIndex ⟨n, leftMostColumn (E.filter fun e => e.line == n)⟩
            (L.map some) ≠ some i) →
        Q.get? i = L.get? i := by
      intro i hunt
      have hu := fold_untouched E L ns (TailRelP.refl L) hL hres i hunt
      rw [hQ] at hu
      rw [List.get?_map, List.get?_map] at hu
      cases hq : Q.get? i with
      | none =>
        cases hl : L.get? i with
        | none => rfl
        | some b => rw [hq, hl] at hu; simp at hu
      | some a =>
        cases hl : L.get? i with
        | none => rw [hq, hl] at hu; simp at hu
        | some b =>
          rw [hq, hl] at hu
          simp only [Option.map_some', Option.some.injEq] at hu
          rw [hu]
    have hfold := fold_agree E L ns hrelQ (TailRelP.refl L) hL hres hagree
    rw [hfold, hQ, filterMap_id_map_some]
  rw [h1, h2]

/-- Witness for `claim1_idempotent_amended` at a concrete text and entry set
(two single-line probes). -/
theorem claim1_witness :
    applyLogEntriesToFileContent
        (applyLogEntriesToFileContent
          (stripLogEntriesFromFileContent "p(1)\nq(2)".data)
          [⟨"f".data, 1, some 1, "9".data⟩, ⟨"f".data, 2, some 1, "8".data⟩])
        [⟨"f".data, 1, some 1, "9".data⟩, ⟨"f".data, 2, some 1, "8".data⟩] =
      applyLogEntriesToFileContent (stripLogEntriesFromFileContent "p(1)\nq(2)".data)
        [⟨"f".data, 1, some 1, "9".data⟩, ⟨"f".data, 2, some 1, "8".data⟩] :=
  claim1_idempotent_amended "p(1)\nq(2)".data
    [⟨"f".data, 1, some 1, "9".data⟩, ⟨"f".data, 2, some 1, "8".data⟩]
    (by decide) (by decide)

/-- C5 counterexample: `decode ∘ encode` is not the identity for every
`filePath` free of `':'`, `'?'` and newlines: a non-normalized absolute path
such as `"/a/"` comes back normalized to `"/a"`. -/
theorem claim5_counterexample :
    parseLogEntry "/".data "/l".data
        (stringifyLogEntry "/".data "/l".data ⟨"/a/".data, 1, some 1, "r".data⟩) =
      .ok (some ⟨"/a".data, 1, some 1, "r".data⟩) ∧
    ("/a".data : Str) ≠ "/a/".data :=
  ⟨by rfl, by decide⟩

/-- C6: on real (unmarked) lines the call-end search of `apply` behaves
exactly as claimed: it looks on the anchor line for the first `'('` at or
after the anchor column and yields `none` when there is none; otherwise,
starting just past that `'('` with parenthesis depth 1, it scans forward
across line boundaries and returns the index of the line on which the
running depth first returns to 0, `none` when the end of text comes first
(`specCallEnd` spells out that description); and whenever the search yields
`none` the group is discarded — `applyGroup` leaves the lines unchanged. -/
theorem claim6_call_end_search (n : Int) (col : Option Int) (lines : List Str)
    (entries : List LogEntry) (hcol : leftMostColumn entries = col) :
    findCallEndLineIndex ⟨n, col⟩ (lines.map some) = specCallEnd ⟨n, col⟩ lines ∧
    (specCallEnd ⟨n, col⟩ lines = none →
      applyGroup (lines.map some) n entries = lines.map some) := by
  refine ⟨findCallEnd_eq_spec n col lines, ?_⟩
  intro hnone
  apply applyGroup_of_no_end
  rw [hcol, findCallEnd_eq_spec, hnone]

/-- C5 (amended): `decode` inverts `encode` for every working directory and
base path and every entry whose `filePath` is an absolute *normalized* path
free of `':'` and `'?'`, whose line and column are positive integers and
whose result is arbitrary — provided the base does not itself resolve to the
entry's `filePath` (then `path.relative` yields `""`, which decode rejects).
The escaped result never contains a line break, so the record is one line. -/
theorem claim5_roundtrip_amended (cwd logFilePath : Str) (entry : LogEntry) (c : Int)
    (habs : isAbsolutePath entry.filePath = true)
    (hnorm : resolveAbs entry.filePath = entry.filePath)
    (hcolon : ':' ∉ entry.filePath)
    (hqm : '?' ∉ entry.filePath)
    (hline : 0 < entry.line)
    (hcol : entry.column = some c)
    (hc : 0 < c)
    (hbase : resolveOne cwd logFilePath ≠ entry.filePath) :
    parseLogEntry cwd logFilePath (stringifyLogEntry cwd logFilePath entry) =
      .ok (some entry) ∧
    '\n' ∉ encodeURIComponent entry.result := by
  obtain ⟨fp, ln, col, res⟩ := entry
  dsimp only at habs hnorm hcolon hqm hline hcol hbase ⊢
  subst hcol
  obtain ⟨hres, hRne, hRabs, hRchars⟩ :=
    jsResolve_jsRelative cwd logFilePath fp habs hnorm hbase
  have hrelc : ':' ∉ jsRelative cwd logFilePath fp := by
    intro hm
    rcases hRchars ':' hm with h | h | h
    · exact absurd h (by decide)
    · exact absurd h (by decide)
    · exact hcolon h
  have hrelq : '?' ∉ jsRelative cwd logFilePath fp := by
    intro hm
    rcases hRchars '?' hm with h | h | h
    · exact absurd h (by decide)
    · exact absurd h (by decide)
    · exact hqm h
  obtain ⟨-, hl_ne, hl_dig, -⟩ := intToStr_pos ln hline
  obtain ⟨-, hc_ne, hc_dig, -⟩ := intToStr_pos c hc
  have hBcol : ':' ∉ intToStr ln := fun hm => absurd (hl_dig ':' hm) (by decide)
  have hCcol : ':' ∉ intToStr c := fun hm => absurd (hc_dig ':' hm) (by decide)
  have hstr : stringifyLogEntry cwd logFilePath ⟨fp, ln, some c, res⟩ =
      (jsRelative cwd logFilePath fp ++ ':' :: (intToStr ln ++ ':' :: intToStr c)) ++
        delimiter ++ encodeURIComponent res := by
    show joinSep [':'] [jsRelative cwd logFilePath fp, intToStr ln, intToStr c] ++
        delimiter ++ encodeURIComponent res = _
    rw [joinSep_cons _ _ _ (by simp), joinSep_cons _ _ _ (by simp)]
    show jsRelative cwd logFilePath fp ++ [':'] ++ (intToStr ln ++ [':'] ++ intToStr c) ++
        delimiter ++ encodeURIComponent res = _
    simp [List.append_assoc]
  have hlocne : jsRelative cwd logFilePath fp ++
      ':' :: (intToStr ln ++ ':' :: intToStr c) ≠ [] := by
    intro hh
    rw [List.append_eq_nil] at hh
    exact absurd hh.2 (by simp)
  have hnodelim := no_delimiter_in_location _ _ _ hrelc hBcol hCcol hl_ne
  have hlastd := location_last_digit (jsRelative cwd logFilePath fp) (intToStr ln)
    (intToStr c) hc_ne hc_dig
  have hfind := findSub_delimiter_log _ (encodeURIComponent res) hlocne hnodelim hlastd
  constructor
  · rw [hstr, parseLogEntry_structured cwd logFilePath _ _ hfind,
      decodeURIComponent_encode res,
      parseFileLocation_round _ hRne hrelc hrelq ln c hline hc]
    dsimp only
    rw [hres]
  · exact encode_no_newline res

theorem claim5_witness :
    isAbsolutePath "/a/b".data = true ∧
    resolveAbs "/a/b".data = "/a/b".data ∧
    ':' ∉ "/a/b".data ∧ '?' ∉ "/a/b".data ∧
    (0 : Int) < 12 ∧ (0 : Int) < 3 ∧
    resolveOne "/w".data "/log/x".data ≠ "/a/b".data ∧
    (parseLogEntry "/w".data "/log/x".data
        (stringifyLogEntry "/w".data "/log/x".data
          ⟨"/a/b".data, 12, some 3, "r \n%µ".data⟩) =
        .ok (some ⟨"/a/b".data, 12, some 3, "r \n%µ".data⟩) ∧
      '\n' ∉ encodeURIComponent "r \n%µ".data) :=
  ⟨rfl, rfl, by decide, by decide, by norm_num, by norm_num, by decide,
    claim5_roundtrip_amended "/w".data "/log/x".data
      ⟨"/a/b".data, 12, some 3, "r \n%µ".data⟩ 3
      rfl rfl (by decide) (by decide) (by norm_num) rfl
      (by norm_num) (by decide)⟩

theorem claim6_witness :
    leftMostColumn [⟨"f".data, 1, some 1, "r".data⟩] = some 1 ∧
    (findCallEndLineIndex ⟨1, some 1⟩ (["p(q(".data, "))".data].map some) =
        specCallEnd ⟨1, some 1⟩ ["p(q(".data, "))".data] ∧
      (specCallEnd ⟨1, some 1⟩ ["p(q(".data, "))".data] = none →
        applyGroup (["p(q(".data, "))".data].map some) 1
            [⟨"f".data, 1, some 1, "r".data⟩] =
          ["p(q(".data, "))".data].map some)) :=
  ⟨by decide,
    claim6_call_end_search 1 (some 1) ["p(q(".data, "))".data]
      [⟨"f".data, 1, some 1, "r".data⟩] (by decide)⟩

end Srepl
